import Mathlib

/-!
Verification of a grammar-driven parsing engine: the elision-aware peeking
lexer (`PeekingLexer` in `lexer/peek.go`) and the parser-combinator nodes
(disjunction, group, negation, literal) together with the field binder
(`setField` / `conform`).

Conventions of the shallow embedding:
* Go slices of tokens become `List Token`; slice indexing that Go would
  perform out of bounds (a runtime panic) is modelled by `Option`-returning
  functions yielding `none`.
* The Go scanning loops (`advanceToNonElided`, `PeekAny`, `FastForward`)
  are written with an explicit fuel argument equal to the number of array
  slots that remain, which is an exact bound for the loop: whenever the
  loop would read index `i` with `i < tokens.length` the fuel is positive,
  and when `i` runs off the end both the loop (a Go panic) and the model
  (fuel 0 / `get?` miss) fail with `none`.
* Mutation of the lexer/parse-context becomes explicit state passing.
-/

namespace Participle

/-- EOF token type. The lexer library (`lexer/core.go`, outside the parser
core) defines `EOF TokenType = -(iota + 1)`, i.e. `-1`; literal nodes reuse
the same constant as the "untyped" marker. -/
def EOF : Int := -1

/-- A lexer token: integer type tag, string value, source position
(modelled as a byte offset). -/
structure Token where
  type : Int
  value : String
  pos : Nat
deriving Repr, DecidableEq

/-- `Token.EOF()`: true iff the token's type equals the EOF type. -/
def Token.isEOF (t : Token) : Bool := t.type == EOF

/-- Default token used to totalize functions whose Go counterpart would
panic on an out-of-bounds read; unreachable for well-formed streams. -/
def dummyTok : Token := ⟨EOF, "", 0⟩

/-- The mutable cursor state of the `PeekingLexer` (struct `Checkpoint`). -/
structure Checkpoint where
  /-- The raw position of the next possibly elided token. -/
  rawCursor : Nat
  /-- The raw position of the next non-elided token. -/
  nextCursor : Nat
  /-- Index of the next non-elided token among other non-elided tokens. -/
  cursor : Nat
deriving Repr, DecidableEq

/-- `PeekingLexer`: the token stream, the elision set (`map[TokenType]bool`
modelled as a list of types), and the embedded `Checkpoint`. -/
structure PeekingLexer where
  chk : Checkpoint
  tokens : List Token
  elide : List Int
deriving Repr, DecidableEq

/-- Loop body of `advanceToNonElided`, scanning from index `i`:
stop at the first token that is EOF or not elided. `fuel` is the number of
remaining slots (see the module comment); `none` models the Go panic of an
out-of-bounds read. -/
def advanceFromAux (ts : List Token) (el : List Int) : Nat → Nat → Option Nat
  | 0, _ => none
  | fuel + 1, i =>
    match ts.get? i with
    | none => none
    | some t => if t.isEOF || !(el.contains t.type) then some i else advanceFromAux ts el fuel (i + 1)

/-- `advanceToNonElided` scanning loop started at index `i`. -/
def advanceFrom (ts : List Token) (el : List Int) (i : Nat) : Option Nat :=
  advanceFromAux ts el (ts.length - i) i

/-- `(*PeekingLexer).advanceToNonElided`: advance `nextCursor` to the
closest non-elided token. -/
def PeekingLexer.advanceToNonElided (p : PeekingLexer) : Option PeekingLexer :=
  (advanceFrom p.tokens p.elide p.chk.nextCursor).map fun j =>
    { p with chk := { p.chk with nextCursor := j } }

/-- `Upgrade`: build a `PeekingLexer` over an already-drained token stream
(`fillInPeekingLexer` consumes the producer into `tokens`, then calls
`advanceToNonElided` once). -/
def upgrade (ts : List Token) (el : List Int) : Option PeekingLexer :=
  PeekingLexer.advanceToNonElided { chk := ⟨0, 0, 0⟩, tokens := ts, elide := el }

/-- `Peek`: the token at `nextCursor`. -/
def PeekingLexer.peek (p : PeekingLexer) : Option Token := p.tokens.get? p.chk.nextCursor

/-- `RawPeek`: the token at `rawCursor`. -/
def PeekingLexer.rawPeek (p : PeekingLexer) : Option Token := p.tokens.get? p.chk.rawCursor

/-- Total variant of `Peek` (the fallback is unreachable for well-formed
streams, where the cursor stays in bounds). -/
def PeekingLexer.peekD (p : PeekingLexer) : Token := p.peek.getD dummyTok

/-- Total variant of `RawPeek`. -/
def PeekingLexer.rawPeekD (p : PeekingLexer) : Token := p.rawPeek.getD dummyTok

/-- `Next`: consume and return the next (non-elided) token. At EOF the
state is unchanged; otherwise `nextCursor` moves past the token,
`rawCursor` is set to it, `cursor` counts the consumed token, and
`advanceToNonElided` skips the following elided run. -/
def PeekingLexer.next (p : PeekingLexer) : Option (Token × PeekingLexer) :=
  match p.tokens.get? p.chk.nextCursor with
  | none => none
  | some t =>
    if t.isEOF then some (t, p)
    else
      (PeekingLexer.advanceToNonElided
        { p with chk := { rawCursor := p.chk.nextCursor + 1, nextCursor := p.chk.nextCursor + 1,
                          cursor := p.chk.cursor + 1 } }).map fun q => (t, q)

/-- Total variant of `Next`. -/
def PeekingLexer.nextT (p : PeekingLexer) : Token × PeekingLexer := p.next.getD (dummyTok, p)

/-- Loop body of `PeekAny` from raw index `i`: return the first token that
is EOF, satisfies the predicate, or is not elided, with its index. -/
def peekAnyFromAux (ts : List Token) (el : List Int) (pr : Token → Bool) :
    Nat → Nat → Option (Token × Nat)
  | 0, _ => none
  | fuel + 1, i =>
    match ts.get? i with
    | none => none
    | some t =>
      if t.isEOF || pr t || !(el.contains t.type) then some (t, i)
      else peekAnyFromAux ts el pr fuel (i + 1)

/-- `PeekAny` scanning loop started at index `i`. -/
def peekAnyFrom (ts : List Token) (el : List Int) (pr : Token → Bool) (i : Nat) :
    Option (Token × Nat) :=
  peekAnyFromAux ts el pr (ts.length - i) i

/-- `(*PeekingLexer).PeekAny`: peek forward over elided and non-elided
tokens from the raw cursor; does not advance. -/
def PeekingLexer.peekAny (p : PeekingLexer) (pr : Token → Bool) : Option (Token × Nat) :=
  peekAnyFrom p.tokens p.elide pr p.chk.rawCursor

/-- Loop of `FastForward`: walk `rawCursor` up to `target` inclusive,
counting non-elided tokens into `cursor`, breaking early at EOF. Returns
the final `(rawCursor, cursor)` pair. Fuel is `target + 1 - raw`, the
exact number of loop entries with `raw ≤ target`. -/
def ffLoopAux (ts : List Token) (el : List Int) (target : Nat) :
    Nat → Nat → Nat → Option (Nat × Nat)
  | 0, raw, cur => some (raw, cur)
  | fuel + 1, raw, cur =>
    if raw ≤ target then
      match ts.get? raw with
      | none => none
      | some t =>
        if t.isEOF then some (raw, cur)
        else ffLoopAux ts el target fuel (raw + 1) (if el.contains t.type then cur else cur + 1)
    else some (raw, cur)

/-- `FastForward` loop started at `(raw, cur)`. -/
def ffLoop (ts : List Token) (el : List Int) (target : Nat) (raw cur : Nat) : Option (Nat × Nat) :=
  ffLoopAux ts el target (target + 1 - raw) raw cur

/-- `(*PeekingLexer).FastForward`: advance the internal cursors to the
given raw position, then re-skip the elided run. -/
def PeekingLexer.fastForward (p : PeekingLexer) (target : Nat) : Option PeekingLexer :=
  match ffLoop p.tokens p.elide target p.chk.rawCursor p.chk.cursor with
  | none => none
  | some (raw, cur) =>
    PeekingLexer.advanceToNonElided
      { p with chk := { rawCursor := raw, nextCursor := raw, cursor := cur } }

/-- Total variant of `FastForward`. -/
def PeekingLexer.fastForwardD (p : PeekingLexer) (target : Nat) : PeekingLexer :=
  (p.fastForward target).getD p

/-- `MakeCheckpoint`: return the embedded cursor triple. -/
def PeekingLexer.makeCheckpoint (p : PeekingLexer) : Checkpoint := p.chk

/-- `LoadCheckpoint`: restore the embedded cursor triple. -/
def PeekingLexer.loadCheckpoint (p : PeekingLexer) (c : Checkpoint) : PeekingLexer :=
  { p with chk := c }

/-- Stream contract (§6 of the spec): the token array is non-empty and its
last element is its only EOF token. -/
def LastOnlyEOF (ts : List Token) : Prop :=
  ts ≠ [] ∧ ∀ k, k < ts.length → ((ts.getD k dummyTok).isEOF = true ↔ k + 1 = ts.length)

instance (ts : List Token) : Decidable (LastOnlyEOF ts) :=
  inferInstanceAs (Decidable (_ ∧ ∀ k, k < ts.length → (_ ↔ _)))

/-- A captured value (`reflect.Value` as it flows between nodes): either a
matched token's string value or an opaque populated record. -/
inductive PVal where
  | str (s : String)
  | node (n : Nat)
deriving Repr, DecidableEq

/-- Parse errors. `Errorf(pos, msg)` values produced by the group node are
modelled by dedicated constructors carrying the position; errors produced
by arbitrary inner nodes are `custom`. -/
inductive PErr where
  | unexpectedToken (t : Token)
  | tooManyIterations (pos : Nat)
  | mustMatchAtLeastOnce (pos : Nat)
  | cannotBeEmpty (pos : Nat)
  | custom (n : Nat)
deriving Repr, DecidableEq

/-- Modelled from the spec: the `parseContext` (its source, `context.go`,
is not part of the parser core under verification). Per §3/§4.B it carries
the peeking lexer, the deferred-assignment queue of the current branch
(entries abstracted to numbers), the deepest-error record (error value and
the non-elided cursor at which it was recorded), the lookahead commit
threshold and the case-insensitive token-type set. -/
structure ParseCtx where
  lex : PeekingLexer
  deferred : List Nat
  deepest : Option (PErr × Nat)
  lookahead : Nat
  caseInsensitive : List Int
deriving Repr, DecidableEq

/-- Result of `node.Parse(ctx, parent)`: the returned value slice (Go `nil`
is `none`, an empty non-nil slice is `some []`), the returned error, and
the context state after the call. -/
structure PRes where
  vals : Option (List PVal)
  err : Option PErr
  ctx : ParseCtx
deriving Repr, DecidableEq

/-- Modelled from the spec (§4.B): `Branch()` — a child context with a copy
of the cursor triple and an empty deferred-assignment queue. -/
def ParseCtx.branch (p : ParseCtx) : ParseCtx := { p with deferred := [] }

/-- Modelled from the spec (§4.B): deepest-error propagation on `Accept` —
the branch's record wins iff it is strictly deeper. -/
def mergeDeepest : Option (PErr × Nat) → Option (PErr × Nat) → Option (PErr × Nat)
  | pd, none => pd
  | none, some bd => some bd
  | some (pe, pc), some (be, bc) => if bc > pc then some (be, bc) else some (pe, pc)

/-- Modelled from the spec (§4.B): `Accept(branch)` — copy the branch's
cursor into the parent, append its deferred assignments, and propagate its
deepest-error if deeper. -/
def ParseCtx.accept (p : ParseCtx) (b : ParseCtx) : ParseCtx :=
  { p with lex := { p.lex with chk := b.lex.chk },
           deferred := p.deferred ++ b.deferred,
           deepest := mergeDeepest p.deepest b.deepest }

/-- Modelled from the spec (§4.B): `Stop(err, branch)` — true iff the
branch's non-elided cursor progressed past the caller's cursor plus the
lookahead threshold. (The spec describes no state change.) -/
def ParseCtx.stop (p : ParseCtx) (b : ParseCtx) : Bool :=
  b.lex.chk.cursor > p.lex.chk.cursor + p.lookahead

/-- Modelled from the spec (§4.B): `MaybeUpdateError(err)` — record `err`
as the deepest error iff the current non-elided cursor exceeds the stored
deepest cursor (or none is stored yet). -/
def ParseCtx.maybeUpdateError (p : ParseCtx) (e : PErr) : ParseCtx :=
  match p.deepest with
  | none => { p with deepest := some (e, p.lex.chk.cursor) }
  | some (_, d) =>
    if p.lex.chk.cursor > d then { p with deepest := some (e, p.lex.chk.cursor) } else p

/-- `ctx.Peek()` seen from the context (total variant). -/
def ParseCtx.peekD (p : ParseCtx) : Token := p.lex.peekD

/-- A grammar node's `Parse` method, abstracted: the node is an arbitrary
function from the (branch) context it is run on to its result. -/
abbrev AltFn := ParseCtx → PRes

/-- The alternative used to pad `List.getD` lookups; never runs under the
theorems' bounds hypotheses. -/
def dummyAlt : AltFn := fun c => ⟨none, none, c⟩

/-- Outcome of alternative `j` of a disjunction: every alternative is run
on a fresh branch of the same context (the loop never mutates `ctx`
between iterations), so outcome `j` is `alts[j]` applied to `ctx.branch`. -/
def altOutcome (alts : List AltFn) (ctx : ParseCtx) (j : Nat) : PRes :=
  (alts.getD j dummyAlt) ctx.branch

/-- Result of `disjunction.Parse`: either a value/error/context triple or
the panic raised when an accepted branch did not progress the lexer. -/
inductive DisjOut where
  | panicked (pos : Nat)
  | done (r : PRes)
deriving Repr, DecidableEq

/-- Loop of `disjunction.Parse` with its three accumulator variables
(`deepestError`, `firstError`, `firstValues`). The Go pointer comparison
`bt == ct` of `branch.RawPeek()` and `ctx.RawPeek()` holds iff both raw
cursors coincide (the branch shares the parent's token array). -/
def disjunctionLoop (ctx : ParseCtx) :
    List AltFn → Nat → Option PErr → Option (List PVal) → DisjOut
  | [], _, firstError, firstValues =>
    match firstError with
    | some e => .done ⟨firstValues, some e, ctx.maybeUpdateError e⟩
    | none => .done ⟨none, none, ctx⟩
  | a :: rest, deepestError, firstError, firstValues =>
    let r := a ctx.branch
    match r.err with
    | some e =>
      if ctx.stop r.ctx then .done ⟨r.vals, some e, ctx⟩
      else if r.ctx.lex.chk.cursor ≥ deepestError then
        disjunctionLoop ctx rest r.ctx.lex.chk.cursor (some e) r.vals
      else disjunctionLoop ctx rest deepestError firstError firstValues
    | none =>
      match r.vals with
      | some v =>
        if r.ctx.lex.chk.rawCursor == ctx.lex.chk.rawCursor && !r.ctx.lex.rawPeekD.isEOF then
          .panicked r.ctx.lex.rawPeekD.pos
        else .done ⟨some v, none, ctx.accept r.ctx⟩
      | none => disjunctionLoop ctx rest deepestError firstError firstValues

/-- `disjunction.Parse`. -/
def disjunctionParse (alts : List AltFn) (ctx : ParseCtx) : DisjOut :=
  disjunctionLoop ctx alts 0 none none

/-- `MaxIterations` limits the number of elements capturable by a
repetition. -/
def MaxIterations : Nat := 1000000

/-- The five group cardinality modes. -/
inductive GroupMode where
  | once
  | zeroOrOne
  | zeroOrMore
  | oneOrMore
  | nonEmpty
deriving Repr, DecidableEq

/-- Go's `out = append(out, v...)`: appending no elements preserves a nil
slice; appending at least one element always yields a non-nil slice. -/
def goAppend (out v : Option (List PVal)) : Option (List PVal) :=
  match v with
  | none => out
  | some [] => out
  | some vs => some (out.getD [] ++ vs)

/-- How the loop of `group.Parse` ends: an error the context committed to
(`Stop` returned true, the whole call returns), or a normal exit (`break`
or the `matches < max` guard failing) carrying the final loop state. -/
inductive GroupLoopExit where
  | stopErr (out : Option (List PVal)) (e : PErr) (ctx : ParseCtx)
  | broke (nMatches : Nat) (out : Option (List PVal)) (ctx : ParseCtx)
deriving Repr, DecidableEq

/-- The iteration loop of `group.Parse`. `matches++` runs only when an
iteration completes normally (Go `for` post-statement is skipped by
`break`). The match counter is called `nMatches` here (`matches` is
reserved in Lean). Fuel is `mx - nMatches`, exact for the loop guard. -/
def groupLoopAux (expr : AltFn) (mx : Nat) :
    Nat → Nat → Option (List PVal) → ParseCtx → GroupLoopExit
  | 0, nMatches, out, ctx => .broke nMatches out ctx
  | fuel + 1, nMatches, out, ctx =>
    if nMatches < mx then
      let r := expr ctx.branch
      match r.err with
      | some e =>
        let c := ctx.maybeUpdateError e
        if c.stop r.ctx then .stopErr (goAppend out r.vals) e c
        else .broke nMatches out c
      | none =>
        let out' := goAppend out r.vals
        let c := ctx.accept r.ctx
        match r.vals with
        | none => .broke nMatches out' c
        | some _ => groupLoopAux expr mx fuel (nMatches + 1) out' c
    else .broke nMatches out ctx

/-- The `group.Parse` loop started at `matches` iterations already done. -/
def groupLoop (expr : AltFn) (mx nMatches : Nat) (out : Option (List PVal)) (ctx : ParseCtx) :
    GroupLoopExit :=
  groupLoopAux expr mx (mx - nMatches) nMatches out ctx

/-- `group.Parse`. -/
def groupParse (mode : GroupMode) (expr : AltFn) (ctx : ParseCtx) : PRes :=
  match mode with
  | .nonEmpty =>
    let r := expr ctx
    match r.err with
    | some _ => r
    | none =>
      if (r.vals.getD []).length = 0 then
        ⟨r.vals, some (.cannotBeEmpty r.ctx.peekD.pos), r.ctx⟩
      else r
  | .once => expr ctx
  | _ =>
    let mn : Nat := match mode with | .oneOrMore => 1 | _ => 0
    let mx : Nat := match mode with | .zeroOrOne => 1 | _ => MaxIterations
    match groupLoop expr mx 0 none ctx with
    | .stopErr out e c => ⟨out, some e, c⟩
    | .broke nMatches out c =>
      if nMatches ≥ MaxIterations then ⟨none, some (.tooManyIterations c.peekD.pos), c⟩
      else if nMatches < mn then ⟨out, some (.mustMatchAtLeastOnce c.peekD.pos), c⟩
      else if mn = 0 ∧ out = none then ⟨some [], none, c⟩
      else ⟨out, none, c⟩

/-- `negation.Parse`: run the inner node in an uncommitted branch; a
successful inner match makes the negation fail, otherwise one token is
consumed from the parent cursor via `Next` and its value captured. -/
def negationParse (inner : AltFn) (ctx : ParseCtx) : PRes :=
  let notEOF := ctx.peekD
  if notEOF.isEOF then ⟨none, none, ctx⟩
  else
    let r := inner ctx.branch
    if r.vals ≠ none ∧ r.err = none then ⟨none, some (.unexpectedToken notEOF), ctx⟩
    else
      let n := ctx.lex.nextT
      ⟨some [.str n.1.value], none, { ctx with lex := n.2 }⟩

/-- ASCII lower-casing of one character. -/
def asciiLower (c : Char) : Char :=
  if 'A' ≤ c ∧ c ≤ 'Z' then Char.ofNat (c.toNat + 32) else c

/-- Modelled from the spec: Go's `strings.EqualFold` (library code), i.e.
case-insensitive string equality, restricted to ASCII folding. -/
def eqFold (a b : String) : Bool := a.data.map asciiLower == b.data.map asciiLower

/-- The match predicate of `literal.Parse`: type check against the literal
type `lt` (`lexer.EOF`, i.e. `-1`, means untyped) and value comparison,
case-insensitive for token types in the context's case-insensitive set.
An empty literal value compares equal to anything. -/
def literalMatch (ci : List Int) (s : String) (lt : Int) (t : Token) : Bool :=
  let equal := if ci.contains t.type then s == "" || eqFold t.value s else s == "" || t.value == s
  (lt == EOF || lt == t.type) && equal

/-- `literal.Parse`: find a candidate token with `PeekAny`; if it passes
the predicate,
`FastForward` to it and capture its value, otherwise no-match. -/
def literalParse (s : String) (lt : Int) (ctx : ParseCtx) : PRes :=
  match ctx.lex.peekAny (literalMatch ctx.caseInsensitive s lt) with
  | some (token, cursor) =>
    if literalMatch ctx.caseInsensitive s lt token then
      ⟨some [.str token.value], none, { ctx with lex := ctx.lex.fastForwardD cursor }⟩
    else ⟨none, none, ctx⟩
  | none => ⟨none, none, ctx⟩

/-! ## Field binder (`setField` / `conform`)

Reflection (`reflect.Type` / `reflect.Value`) is modelled by the explicit
universes `FType` / `RVal` below. Floating-point fields are not modelled
(floating point is outside the embedding); the integer and unsigned paths
are translated in full. -/

/-- Field types as `setField`/`conform` distinguish them. `tint 64` also
stands for Go's `int` (`sizeOfKind` maps `reflect.Int` to
`strconv.IntSize = 64`). -/
inductive FType where
  | tint (bits : Nat)
  | tuint (bits : Nat)
  | tbool
  | tstr
  | ttok
  | ttoks
  | tslice (elem : FType)
  | tptr (elem : FType)
  | trec (id : Nat)
  | tiface
deriving Repr, DecidableEq

/-- `reflect.Kind` of a field type. -/
inductive FKind where
  | kint
  | kuint
  | kbool
  | kstr
  | ktok
  | ktoks
  | kslice
  | kptr
  | krec
  | kiface
deriving Repr, DecidableEq

/-- Kind of a type. -/
def FType.kind : FType → FKind
  | .tint _ => .kint
  | .tuint _ => .kuint
  | .tbool => .kbool
  | .tstr => .kstr
  | .ttok => .ktok
  | .ttoks => .ktoks
  | .tslice _ => .kslice
  | .tptr _ => .kptr
  | .trec _ => .krec
  | .tiface => .kiface

/-- Runtime values (`reflect.Value`). Record values are opaque ids. -/
inductive RVal where
  | vstr (s : String)
  | vint (bits : Nat) (n : Int)
  | vuint (bits : Nat) (n : Nat)
  | vbool (b : Bool)
  | vtok (t : Token)
  | vtoks (ts : List Token)
  | vslice (elem : FType) (xs : List RVal)
  | vptrOf (x : RVal)
  | vptrNil (elem : FType)
  | vrec (id : Nat)
  | viface (id : Nat)

/-- `reflect.Value.Type()`. -/
def RVal.typeOf : RVal → FType
  | .vstr _ => .tstr
  | .vint b _ => .tint b
  | .vuint b _ => .tuint b
  | .vbool _ => .tbool
  | .vtok _ => .ttok
  | .vtoks _ => .ttoks
  | .vslice e _ => .tslice e
  | .vptrOf x => .tptr x.typeOf
  | .vptrNil e => .tptr e
  | .vrec i => .trec i
  | .viface _ => .tiface

/-- `reflect.Value.Kind()`. -/
def RVal.kind (v : RVal) : FKind := v.typeOf.kind

/-- `reflect.Value.String()`: the string itself on string kinds, and a
`<T Value>` placeholder on every other kind (never a panic). -/
def RVal.goString : RVal → String
  | .vstr s => s
  | _ => "<Value>"

/-- Two's-complement wrap-around to a signed width, as Go conversions and
`reflect.Value.SetInt` truncate. -/
def wrapI (bits : Nat) (n : Int) : Int :=
  (n + 2 ^ (bits - 1)) % 2 ^ bits - 2 ^ (bits - 1)

/-- `reflect.Value.Convert` for the same-kind case of `conform` (numeric
width conversions truncate; other same-kind conversions are identities
here). -/
def RVal.convertTo (v : RVal) (t : FType) : RVal :=
  match v, t with
  | .vint _ n, .tint b => .vint b (wrapI b n)
  | .vuint _ n, .tuint b => .vuint b (n % 2 ^ b)
  | v, _ => v

/-- Value of one hexadecimal digit character. -/
def digitVal (c : Char) : Option Nat :=
  if '0' ≤ c ∧ c ≤ '9' then some (c.toNat - '0'.toNat)
  else if 'a' ≤ c ∧ c ≤ 'f' then some (c.toNat - 'a'.toNat + 10)
  else if 'A' ≤ c ∧ c ≤ 'F' then some (c.toNat - 'A'.toNat + 10)
  else none

/-- Digit-string accumulator for a given base. -/
def parseDigitsAux (base : Nat) : Nat → List Char → Option Nat
  | acc, [] => some acc
  | acc, c :: cs =>
    match digitVal c with
    | some d => if d < base then parseDigitsAux base (acc * base + d) cs else none
    | none => none

/-- A non-empty digit string in the given base. -/
def parseDigits (base : Nat) (cs : List Char) : Option Nat :=
  match cs with
  | [] => none
  | _ => parseDigitsAux base 0 cs

/-- Modelled from the spec: the base-0 prefix rules of Go's
`strconv.ParseUint` (library code): `0x`/`0X` hex, `0b`/`0B` binary,
`0o`/`0O` octal, a bare leading `0` legacy octal, else decimal. -/
def parseUintBase0 : List Char → Option Nat
  | [] => none
  | '0' :: rest =>
    match rest with
    | [] => some 0
    | c :: rest' =>
      if c = 'x' ∨ c = 'X' then parseDigits 16 rest'
      else if c = 'b' ∨ c = 'B' then parseDigits 2 rest'
      else if c = 'o' ∨ c = 'O' then parseDigits 8 rest'
      else parseDigits 8 rest
  | cs => parseDigits 10 cs

/-- Modelled from the spec: `strconv.ParseUint(s, 0, bits)` — base-0
parse, no sign, range-checked against the bit width. -/
def goParseUint (s : String) (bits : Nat) : Option Nat :=
  (parseUintBase0 s.data).bind fun n => if n < 2 ^ bits then some n else none

/-- Modelled from the spec: `strconv.ParseInt(s, 0, bits)` — optional
sign, base-0 magnitude, range-checked against the signed width. -/
def goParseInt (s : String) (bits : Nat) : Option Int :=
  match s.data with
  | '+' :: rest =>
    (parseUintBase0 rest).bind fun n =>
      if (n : Int) ≤ 2 ^ (bits - 1) - 1 then some (n : Int) else none
  | '-' :: rest =>
    (parseUintBase0 rest).bind fun n =>
      if (n : Int) ≤ 2 ^ (bits - 1) then some (-(n : Int)) else none
  | cs =>
    (parseUintBase0 cs).bind fun n =>
      if (n : Int) ≤ 2 ^ (bits - 1) - 1 then some (n : Int) else none

/-- Errors of the field binder. Message formatting is not modelled; Go
panics inside `setField` (index or type-assertion failures) appear as
dedicated error values. -/
inductive BindErr where
  | numParse (s : String)
  | typeMismatch
  | unsupported
  | hookErr (n : Nat)
  | panicIdx
  | panicAssert
deriving Repr, DecidableEq

/-- Loop of `conform`: transform each value toward type `t`, accumulating
into `out`. Captured values are never addressable (they are built with
`reflect.ValueOf`), so the pointer-hydration loop's `!v.CanAddr()` branch
— a bare `return` — yields the accumulated prefix with no error. -/
def conformAux (t : FType) : List RVal → List RVal → Except BindErr (List RVal)
  | out, [] => .ok out
  | out, v :: rest =>
    if t.kind = .kptr ∧ v.kind ≠ .kptr ∧ v.typeOf ≠ t then .ok out
    else if v.kind = t.kind then
      conformAux t (out ++ [v.convertTo t]) rest
    else
      match t with
      | .tint bits =>
        match goParseInt v.goString bits with
        | none => .error (.numParse v.goString)
        | some n => conformAux t (out ++ [.vint bits n]) rest
      | .tuint bits =>
        match goParseUint v.goString bits with
        | none => .error (.numParse v.goString)
        | some n => conformAux t (out ++ [.vuint bits n]) rest
      | .tbool => conformAux t (out ++ [.vbool true]) rest
      | _ => conformAux t (out ++ [v]) rest

/-- `conform(t, values)`: dereference/parse/convert values to `t`. -/
def conform (t : FType) (values : List RVal) : Except BindErr (List RVal) :=
  conformAux t [] values

/-- The user-defined binding hooks a field may expose: `Capture` on the
field, `UnmarshalText` on the field, and `Capture` on a slice's element
type. Their behavior is user code, abstracted as functions. -/
structure Hooks where
  fieldCapture : Option (List String → Except BindErr RVal)
  fieldText : Option (String → RVal → Except BindErr RVal)
  elemCapture : Option (String → Except BindErr RVal)

/-- No hooks (plain field types). -/
def noHooks : Hooks := ⟨none, none, none⟩

/-- Go's `v.Interface().(string)` type assertion on a captured value;
`none` models the panic on non-string values. -/
def valAsStr : RVal → Option String
  | .vstr s => some s
  | _ => none

/-- Zero value of a type (`reflect.New(t).Elem()`). -/
def zeroVal : FType → RVal
  | .tint b => .vint b 0
  | .tuint b => .vuint b 0
  | .tbool => .vbool false
  | .tstr => .vstr ""
  | .ttok => .vtok dummyTok
  | .ttoks => .vtoks []
  | .tslice e => .vslice e []
  | .tptr e => .vptrNil e
  | .trec i => .vrec i
  | .tiface => .viface 0

/-- Elements of a slice-valued field (zero value: empty). -/
def sliceElems : RVal → List RVal
  | .vslice _ xs => xs
  | _ => []

/-- Current string content of a string-valued field. -/
def strCur : RVal → String
  | .vstr s => s
  | _ => ""

/-- `f.Int()` of the field's current value. -/
def intCur : RVal → Int
  | .vint _ n => n
  | _ => 0

/-- `f.Uint()` of the field's current value. -/
def uintCur : RVal → Nat
  | .vuint _ n => n
  | _ => 0

/-- `fv.Bool()`. -/
def boolCur : RVal → Bool
  | .vbool b => b
  | _ => false

/-- `setField` acting on one field: current value `fcur` of type `t`,
captured values `fieldValue`, source tokens `tokens`. Returns the new
field value. Follows the branch order of the source: pointer hydration,
`Token` / `[]Token` fields, `Capture` hook, `TextUnmarshaler` hook, slice
append, string concatenation, coalescing, `conform`, and the final kind
switch (in which numeric fields increment when the conformed value's type
still differs from the field's). -/
def setFieldVal (tokens : List Token) (hooks : Hooks) :
    FType → RVal → List RVal → Except BindErr RVal
  | .tptr e, fcur, fieldValue =>
    let inner := match fcur with
      | .vptrOf x => x
      | _ => zeroVal e
    (setFieldVal tokens hooks e inner fieldValue).map RVal.vptrOf
  | t, fcur, fieldValue =>
    if t = .ttok then
      match tokens with
      | [] => .error .panicIdx
      | t0 :: _ => .ok (.vtok t0)
    else if t = .ttoks then .ok (.vtoks tokens)
    else
      match hooks.fieldCapture with
      | some h =>
        match fieldValue.mapM valAsStr with
        | none => .error .panicAssert
        | some strs => h strs
      | none =>
      match hooks.fieldText with
      | some h =>
        fieldValue.foldlM (fun acc v =>
          match valAsStr v with
          | none => (.error .panicAssert : Except BindErr RVal)
          | some s => h s acc) fcur
      | none =>
      match t with
      | .tslice elem =>
        match hooks.elemCapture with
        | some h =>
          (fieldValue.foldlM (fun (xs : List RVal) v =>
            match valAsStr v with
            | none => (.error .panicAssert : Except BindErr (List RVal))
            | some s => (h s).map (fun x => xs ++ [x])) (sliceElems fcur)).map
            (fun xs => RVal.vslice elem xs)
        | none =>
          match conform elem fieldValue with
          | .error e => .error e
          | .ok vs => .ok (.vslice elem (sliceElems fcur ++ vs))
      | .tstr =>
        match conform .tstr fieldValue with
        | .error e => .error e
        | .ok vs =>
          if vs.length = 0 then .ok fcur
          else .ok (.vstr (vs.foldl (fun acc v => acc ++ v.goString) (strCur fcur)))
      | _ =>
        let fieldValue :=
          if fieldValue.length > 1 then [RVal.vstr (String.join (fieldValue.map RVal.goString))]
          else fieldValue
        match conform t fieldValue with
        | .error e => .error e
        | .ok vs =>
          if vs.length = 0 then .ok fcur
          else
            let fv := vs.getD 0 fcur
            match t with
            | .tint bits =>
              if fv.typeOf ≠ t then .ok (.vint bits (wrapI bits (intCur fcur + 1))) else .ok fv
            | .tuint bits =>
              if fv.typeOf ≠ t then .ok (.vuint bits ((uintCur fcur + 1) % 2 ^ bits)) else .ok fv
            | .tbool =>
              if fv.kind = .kbool then .ok (.vbool (boolCur fv))
              else if fv.typeOf ≠ t then .error .typeMismatch
              else .ok fv
            | .trec _ =>
              if fv.typeOf ≠ t then .error .typeMismatch else .ok fv
            | .tiface =>
              if fv.typeOf ≠ t then .error .typeMismatch else .ok fv
            | _ => .error .unsupported

/-- `setField` on a whole record: the record is the list of its fields,
the field is picked by index, and the updated record is returned (the
error-message decoration of the source is not modelled). -/
def setField (tokens : List Token) (strct : List RVal) (idx : Nat) (t : FType) (hooks : Hooks)
    (fieldValue : List RVal) : Except BindErr (List RVal) :=
  match setFieldVal tokens hooks t (strct.getD idx (zeroVal t)) fieldValue with
  | .error e => .error e
  | .ok v => .ok (strct.set idx v)

/-! ## Concrete fixtures used by witnesses and counterexamples -/

/-- Witness stream: identifier, elided whitespace, EOF. -/
def tsW : List Token := [⟨1, "a", 0⟩, ⟨2, " ", 1⟩, ⟨-1, "", 2⟩]

/-- Witness elision set: whitespace. -/
def elW : List Int := [2]

/-- The lexer `Upgrade` builds over `tsW`/`elW`. -/
def lexW : PeekingLexer := ⟨⟨0, 0, 0⟩, tsW, elW⟩

/-- The state of `lexW` after one `Next`. -/
def lexW1 : PeekingLexer := ⟨⟨1, 2, 1⟩, tsW, elW⟩

/-- A lexer already at EOF. -/
def lexAtEOF : PeekingLexer := ⟨⟨0, 0, 0⟩, [dummyTok], []⟩

/-- A stream starting with an elided token (to exhibit `RawPeek` returning
an elided token). -/
def tsRaw : List Token := [⟨2, " ", 0⟩, ⟨1, "a", 1⟩, ⟨-1, "", 2⟩]

/-- The lexer `Upgrade` builds over `tsRaw`/`elW`: raw cursor on the
elided token, next cursor past it. -/
def lexRaw : PeekingLexer := ⟨⟨0, 1, 0⟩, tsRaw, elW⟩

/-- A mid-stream lexer whose elision set also contains the EOF type. -/
def lexB : PeekingLexer := ⟨⟨1, 1, 1⟩, tsW, [2, -1]⟩

/-- A parse context over `lexW` with a permissive lookahead threshold. -/
def ctxW : ParseCtx := ⟨lexW, [], none, 99, []⟩

/-- A parse context whose lexer is at EOF. -/
def ctxE : ParseCtx := ⟨lexAtEOF, [], none, 99, []⟩

/-- Alternative failing recoverably with error 1, not moving its branch. -/
def altErr1 : AltFn := fun c => ⟨none, some (.custom 1), c⟩

/-- Alternative failing recoverably with error 2, not moving its branch. -/
def altErr2 : AltFn := fun c => ⟨none, some (.custom 2), c⟩

/-- Alternative matching `"a"` and advancing its branch over `tsW`. -/
def altMatch : AltFn := fun c =>
  ⟨some [.str "a"], none, { c with lex := { c.lex with chk := ⟨1, 2, 1⟩ } }⟩

/-- Alternative returning no-match. -/
def altNoMatch : AltFn := fun c => ⟨none, none, c⟩

/-- Alternative matching without consuming input, with an empty capture
list (the degenerate grammar that trips the progress check / the empty
repetition guard). -/
def altEps : AltFn := fun c => ⟨some [], none, c⟩

/-- Whether an alternative's outcome is a no-match. -/
def noMatchAlt (r : PRes) : Prop := r.err = none ∧ r.vals = none

instance (r : PRes) : Decidable (noMatchAlt r) := inferInstanceAs (Decidable (_ ∧ _))

/-- Whether an alternative's outcome is an error the context does not
commit to (`Stop` returns false). -/
def recovErrAlt (ctx : ParseCtx) (r : PRes) : Prop := r.err ≠ none ∧ ctx.stop r.ctx = false

instance (ctx : ParseCtx) (r : PRes) : Decidable (recovErrAlt ctx r) :=
  inferInstanceAs (Decidable (_ ∧ _))

/-- Whether an accepted branch passes the progress check of
`disjunction.Parse` (it moved the raw cursor, or sits at EOF). -/
def progressOk (ctx : ParseCtx) (r : PRes) : Prop :=
  r.ctx.lex.chk.rawCursor ≠ ctx.lex.chk.rawCursor ∨ r.ctx.lex.rawPeekD.isEOF = true

instance (ctx : ParseCtx) (r : PRes) : Decidable (progressOk ctx r) :=
  inferInstanceAs (Decidable (_ ∨ _))

/-! ## Lemmas about the scanning loops -/

/-- In-bounds `get?` agrees with `getD`. -/
theorem getD_some (ts : List Token) (i : Nat) (h : i < ts.length) :
    ts.get? i = some (ts.getD i dummyTok) := by
  cases hg : ts.get? i with
  | none =>
    have := List.get?_eq_none.mp hg
    omega
  | some t =>
    rw [List.get?_eq_getElem?] at hg
    rw [List.getD_eq_getElem?_getD, hg]
    rfl

/-- The `advanceToNonElided` loop, started in bounds on a well-formed
stream, stops at or before the EOF index, skipping exactly a run of
elided non-EOF tokens and stopping on an EOF or non-elided token. -/
theorem advanceFromAux_spec (ts : List Token) (el : List Int) (hwf : LastOnlyEOF ts) :
    ∀ fuel i, fuel = ts.length - i → i + 1 ≤ ts.length →
      ∃ j, advanceFromAux ts el fuel i = some j ∧ i ≤ j ∧ j + 1 ≤ ts.length ∧
        (∀ k, i ≤ k → k < j → el.contains (ts.getD k dummyTok).type = true ∧
          (ts.getD k dummyTok).isEOF = false) ∧
        ((ts.getD j dummyTok).isEOF = true ∨ el.contains (ts.getD j dummyTok).type = false) := by
  intro fuel
  induction fuel with
  | zero => intro i hfuel hi; omega
  | succ fuel ih =>
    intro i hfuel hi
    have hi' : i < ts.length := by omega
    have hstep : advanceFromAux ts el (fuel + 1) i =
        if (ts.getD i dummyTok).isEOF || !(el.contains (ts.getD i dummyTok).type) then some i
        else advanceFromAux ts el fuel (i + 1) := by
      simp only [advanceFromAux, getD_some ts i hi']
    cases hEOF : (ts.getD i dummyTok).isEOF with
    | true =>
      refine ⟨i, ?_, Nat.le_refl i, ?_, fun k h1 h2 => by omega, Or.inl hEOF⟩
      · rw [hstep, if_pos (by rw [hEOF]; rfl)]
      · have := (hwf.2 i hi').1 hEOF
        omega
    | false =>
      cases hel : el.contains (ts.getD i dummyTok).type with
      | false =>
        refine ⟨i, ?_, Nat.le_refl i, by omega, fun k h1 h2 => by omega, Or.inr hel⟩
        rw [hstep, if_pos (by rw [hEOF, hel]; rfl)]
      | true =>
        have hne : i + 1 ≠ ts.length := fun h => by
          rw [(hwf.2 i hi').2 h] at hEOF
          cases hEOF
        obtain ⟨j, hj, hij, hjlen, hrun, hstop⟩ := ih (i + 1) (by omega) (by omega)
        refine ⟨j, ?_, by omega, hjlen, ?_, hstop⟩
        · rw [hstep, if_neg (by rw [hEOF, hel]; exact fun h => by cases h), hj]
        · intro k h1 h2
          rcases Nat.eq_or_lt_of_le h1 with h | h
          · exact h ▸ ⟨hel, hEOF⟩
          · exact hrun k h h2

/-- `advanceFrom` started in bounds on a well-formed stream. -/
theorem advanceFrom_spec (ts : List Token) (el : List Int) (hwf : LastOnlyEOF ts)
    (i : Nat) (hi : i + 1 ≤ ts.length) :
    ∃ j, advanceFrom ts el i = some j ∧ i ≤ j ∧ j + 1 ≤ ts.length ∧
      (∀ k, i ≤ k → k < j → el.contains (ts.getD k dummyTok).type = true ∧
        (ts.getD k dummyTok).isEOF = false) ∧
      ((ts.getD j dummyTok).isEOF = true ∨ el.contains (ts.getD j dummyTok).type = false) :=
  advanceFromAux_spec ts el hwf (ts.length - i) i rfl hi

/-- The `PeekAny` loop, started in bounds on a well-formed stream, finds
the first token from `i` on that is EOF, matches, or is not elided. -/
theorem peekAnyFromAux_spec (ts : List Token) (el : List Int) (pr : Token → Bool)
    (hwf : LastOnlyEOF ts) :
    ∀ fuel i, fuel = ts.length - i → i + 1 ≤ ts.length →
      ∃ j, peekAnyFromAux ts el pr fuel i = some (ts.getD j dummyTok, j) ∧ i ≤ j ∧
        j + 1 ≤ ts.length ∧
        ((ts.getD j dummyTok).isEOF = true ∨ pr (ts.getD j dummyTok) = true ∨
          el.contains (ts.getD j dummyTok).type = false) ∧
        (∀ k, i ≤ k → k < j → (ts.getD k dummyTok).isEOF = false ∧
          pr (ts.getD k dummyTok) = false ∧ el.contains (ts.getD k dummyTok).type = true) := by
  intro fuel
  induction fuel with
  | zero => intro i hfuel hi; omega
  | succ fuel ih =>
    intro i hfuel hi
    have hi' : i < ts.length := by omega
    have hstep : peekAnyFromAux ts el pr (fuel + 1) i =
        if (ts.getD i dummyTok).isEOF || pr (ts.getD i dummyTok)
            || !(el.contains (ts.getD i dummyTok).type) then some (ts.getD i dummyTok, i)
        else peekAnyFromAux ts el pr fuel (i + 1) := by
      simp only [peekAnyFromAux, getD_some ts i hi']
    cases hEOF : (ts.getD i dummyTok).isEOF with
    | true =>
      refine ⟨i, ?_, Nat.le_refl i, by omega, Or.inl hEOF, fun k h1 h2 => by omega⟩
      rw [hstep, if_pos (by rw [hEOF]; rfl)]
    | false =>
      cases hpr : pr (ts.getD i dummyTok) with
      | true =>
        refine ⟨i, ?_, Nat.le_refl i, by omega, Or.inr (Or.inl hpr), fun k h1 h2 => by omega⟩
        rw [hstep, if_pos (by rw [hEOF, hpr]; rfl)]
      | false =>
        cases hel : el.contains (ts.getD i dummyTok).type with
        | false =>
          refine ⟨i, ?_, Nat.le_refl i, by omega, Or.inr (Or.inr hel), fun k h1 h2 => by omega⟩
          rw [hstep, if_pos (by rw [hEOF, hpr, hel]; rfl)]
        | true =>
          have hne : i + 1 ≠ ts.length := fun h => by
            rw [(hwf.2 i hi').2 h] at hEOF
            cases hEOF
          obtain ⟨j, hj, hij, hjlen, hstopj, hrun⟩ := ih (i + 1) (by omega) (by omega)
          refine ⟨j, ?_, by omega, hjlen, hstopj, ?_⟩
          · rw [hstep, if_neg (by rw [hEOF, hpr, hel]; exact fun h => by cases h), hj]
          · intro k h1 h2
            rcases Nat.eq_or_lt_of_le h1 with h | h
            · exact h ▸ ⟨hEOF, hpr, hel⟩
            · exact hrun k h h2

/-- `peekAnyFrom` started in bounds on a well-formed stream. -/
theorem peekAnyFrom_spec (ts : List Token) (el : List Int) (pr : Token → Bool)
    (hwf : LastOnlyEOF ts) (i : Nat) (hi : i + 1 ≤ ts.length) :
    ∃ j, peekAnyFrom ts el pr i = some (ts.getD j dummyTok, j) ∧ i ≤ j ∧
      j + 1 ≤ ts.length ∧
      ((ts.getD j dummyTok).isEOF = true ∨ pr (ts.getD j dummyTok) = true ∨
        el.contains (ts.getD j dummyTok).type = false) ∧
      (∀ k, i ≤ k → k < j → (ts.getD k dummyTok).isEOF = false ∧
        pr (ts.getD k dummyTok) = false ∧ el.contains (ts.getD k dummyTok).type = true) :=
  peekAnyFromAux_spec ts el pr hwf (ts.length - i) i rfl hi

/-- The `FastForward` loop, started in bounds on a well-formed stream,
succeeds and ends at or before the EOF index (the EOF check breaks the
walk even when the target lies beyond it). -/
theorem ffLoopAux_spec (ts : List Token) (el : List Int) (target : Nat) (hwf : LastOnlyEOF ts) :
    ∀ fuel raw cur, fuel = target + 1 - raw → raw + 1 ≤ ts.length →
      ∃ r c, ffLoopAux ts el target fuel raw cur = some (r, c) ∧ r + 1 ≤ ts.length := by
  intro fuel
  induction fuel with
  | zero => intro raw cur hfuel hraw; exact ⟨raw, cur, rfl, hraw⟩
  | succ fuel ih =>
    intro raw cur hfuel hraw
    have hle : raw ≤ target := by omega
    have hraw' : raw < ts.length := by omega
    have hstep : ffLoopAux ts el target (fuel + 1) raw cur =
        if (ts.getD raw dummyTok).isEOF then some (raw, cur)
        else ffLoopAux ts el target fuel (raw + 1)
          (if el.contains (ts.getD raw dummyTok).type then cur else cur + 1) := by
      simp only [ffLoopAux, if_pos hle, getD_some ts raw hraw']
    cases hEOF : (ts.getD raw dummyTok).isEOF with
    | true => exact ⟨raw, cur, by rw [hstep, if_pos (by rw [hEOF])], hraw⟩
    | false =>
      have hne : raw + 1 ≠ ts.length := fun h => by
        rw [(hwf.2 raw hraw').2 h] at hEOF
        cases hEOF
      obtain ⟨r, c, hr, hrlen⟩ :=
        ih (raw + 1) (if el.contains (ts.getD raw dummyTok).type then cur else cur + 1)
          (by omega) (by omega)
      refine ⟨r, c, ?_, hrlen⟩
      rw [hstep, if_neg (by rw [hEOF]; exact fun h => by cases h), hr]

/-- `ffLoop` started in bounds on a well-formed stream. -/
theorem ffLoop_spec (ts : List Token) (el : List Int) (target : Nat) (hwf : LastOnlyEOF ts)
    (raw cur : Nat) (hraw : raw + 1 ≤ ts.length) :
    ∃ r c, ffLoop ts el target raw cur = some (r, c) ∧ r + 1 ≤ ts.length :=
  ffLoopAux_spec ts el target hwf (target + 1 - raw) raw cur rfl hraw

/-- Behavior of `Next` on a well-formed stream with the next cursor in
bounds: at EOF it is the identity returning the EOF token; otherwise it
returns the token under the next cursor, sets the raw cursor just past it,
counts it in the non-elided cursor, and re-skips the elided run. -/
theorem next_spec (p : PeekingLexer) (hwf : LastOnlyEOF p.tokens)
    (hn : p.chk.nextCursor + 1 ≤ p.tokens.length) :
    ((p.tokens.getD p.chk.nextCursor dummyTok).isEOF = true →
      p.next = some (p.tokens.getD p.chk.nextCursor dummyTok, p)) ∧
    ((p.tokens.getD p.chk.nextCursor dummyTok).isEOF = false →
      ∃ q, p.next = some (p.tokens.getD p.chk.nextCursor dummyTok, q) ∧
        q.tokens = p.tokens ∧ q.elide = p.elide ∧
        q.chk.rawCursor = p.chk.nextCursor + 1 ∧
        q.chk.cursor = p.chk.cursor + 1 ∧
        p.chk.nextCursor + 1 ≤ q.chk.nextCursor ∧
        q.chk.nextCursor + 1 ≤ p.tokens.length ∧
        (∀ k, p.chk.nextCursor + 1 ≤ k → k < q.chk.nextCursor →
          p.elide.contains (p.tokens.getD k dummyTok).type = true ∧
          (p.tokens.getD k dummyTok).isEOF = false) ∧
        ((p.tokens.getD q.chk.nextCursor dummyTok).isEOF = true ∨
          p.elide.contains (p.tokens.getD q.chk.nextCursor dummyTok).type = false)) := by
  have hget := getD_some p.tokens p.chk.nextCursor (by omega)
  constructor
  · intro hEOF
    unfold PeekingLexer.next
    rw [hget]
    dsimp only
    rw [if_pos hEOF]
  · intro hEOF
    have hne : p.chk.nextCursor + 1 ≠ p.tokens.length := fun h => by
      rw [(hwf.2 _ (by omega)).2 h] at hEOF
      cases hEOF
    obtain ⟨j, hj, hij, hjlen, hrun, hstop⟩ :=
      advanceFrom_spec p.tokens p.elide hwf (p.chk.nextCursor + 1) (by omega)
    refine ⟨{ p with chk := ⟨p.chk.nextCursor + 1, j, p.chk.cursor + 1⟩ }, ?_, rfl, rfl, rfl,
      rfl, hij, hjlen, hrun, hstop⟩
    unfold PeekingLexer.next
    rw [hget]
    dsimp only
    rw [if_neg (by rw [hEOF]; exact fun h => by cases h)]
    unfold PeekingLexer.advanceToNonElided
    dsimp only
    rw [hj]
    rfl

/-! ## Cursor invariant and reachable lexer states -/

/-- The cursor invariant of the spec: `raw ≤ next`, the next cursor is in
bounds, every token in `[raw, next)` is elided, and the token at `next` is
either EOF or non-elided. -/
def CursorInv (p : PeekingLexer) : Prop :=
  p.chk.rawCursor ≤ p.chk.nextCursor ∧
  p.chk.nextCursor + 1 ≤ p.tokens.length ∧
  (∀ k, k < p.chk.nextCursor → p.chk.rawCursor ≤ k →
    p.elide.contains (p.tokens.getD k dummyTok).type = true) ∧
  ((p.tokens.getD p.chk.nextCursor dummyTok).isEOF = true ∨
    p.elide.contains (p.tokens.getD p.chk.nextCursor dummyTok).type = false)

instance (p : PeekingLexer) : Decidable (CursorInv p) :=
  inferInstanceAs (Decidable (_ ∧ _ ∧ (∀ k, k < p.chk.nextCursor → _ → _) ∧ _))

/-- An `Upgrade` of a well-formed stream succeeds and establishes the
cursor invariant with the raw and non-elided cursors at zero. -/
theorem upgrade_spec (ts : List Token) (el : List Int) (hwf : LastOnlyEOF ts) :
    ∃ p, upgrade ts el = some p ∧ p.tokens = ts ∧ p.elide = el ∧
      p.chk.rawCursor = 0 ∧ p.chk.cursor = 0 ∧ CursorInv p := by
  have hlen : 1 ≤ ts.length := by
    cases ts with
    | nil => exact absurd rfl hwf.1
    | cons a l => simp
  obtain ⟨j, hj, h0j, hjlen, hrun, hstop⟩ := advanceFrom_spec ts el hwf 0 hlen
  refine ⟨⟨⟨0, j, 0⟩, ts, el⟩, ?_, rfl, rfl, rfl, rfl,
    ⟨Nat.zero_le j, hjlen, fun k h1 h2 => (hrun k (Nat.zero_le k) h1).1, hstop⟩⟩
  unfold upgrade PeekingLexer.advanceToNonElided
  dsimp only
  rw [hj]
  rfl

/-- `Next` preserves the cursor invariant (and the stream and elision
set). -/
theorem next_preserves_inv (p : PeekingLexer) (t : Token) (q : PeekingLexer)
    (hwf : LastOnlyEOF p.tokens) (hinv : CursorInv p) (h : p.next = some (t, q)) :
    CursorInv q ∧ q.tokens = p.tokens ∧ q.elide = p.elide := by
  obtain ⟨h1, h2, h3, h4⟩ := hinv
  obtain ⟨heof, hnot⟩ := next_spec p hwf h2
  cases hE : (p.tokens.getD p.chk.nextCursor dummyTok).isEOF with
  | true =>
    rw [heof hE] at h
    have hq : q = p := (congrArg Prod.snd (Option.some.inj h)).symm
    subst hq
    exact ⟨⟨h1, h2, h3, h4⟩, rfl, rfl⟩
  | false =>
    obtain ⟨q', hq', hts, hel, hraw, hcur, hle, hlen, hrun, hstop⟩ := hnot hE
    rw [hq'] at h
    have hq : q = q' := (congrArg Prod.snd (Option.some.inj h)).symm
    subst hq
    refine ⟨⟨?_, ?_, ?_, ?_⟩, hts, hel⟩
    · rw [hraw]; exact hle
    · rw [hts]; exact hlen
    · intro k hk1 hk2
      rw [hts, hel]
      rw [hraw] at hk2
      exact (hrun k hk2 hk1).1
    · rw [hts, hel]
      exact hstop

/-- `FastForward` succeeds from an invariant state and preserves the
invariant. -/
theorem fastForward_inv (p : PeekingLexer) (target : Nat)
    (hwf : LastOnlyEOF p.tokens) (hinv : CursorInv p) :
    ∃ q, p.fastForward target = some q ∧ CursorInv q ∧
      q.tokens = p.tokens ∧ q.elide = p.elide := by
  obtain ⟨h1, h2, h3, h4⟩ := hinv
  obtain ⟨r, c, hr, hrlen⟩ :=
    ffLoop_spec p.tokens p.elide target hwf p.chk.rawCursor p.chk.cursor (by omega)
  obtain ⟨j, hj, hrj, hjlen, hrun, hstop⟩ := advanceFrom_spec p.tokens p.elide hwf r hrlen
  refine ⟨⟨⟨r, j, c⟩, p.tokens, p.elide⟩, ?_,
    ⟨hrj, hjlen, fun k hk1 hk2 => (hrun k hk2 hk1).1, hstop⟩, rfl, rfl⟩
  unfold PeekingLexer.fastForward
  rw [hr]
  unfold PeekingLexer.advanceToNonElided
  dsimp only
  rw [hj]
  rfl

/-- Lexer states reachable from `p0` by the observable cursor operations:
`Next`, `FastForward`, and `LoadCheckpoint` of a checkpoint made (by
`MakeCheckpoint`) in any reachable state. `Peek`, `RawPeek` and
`MakeCheckpoint` do not change the state. -/
inductive Reach (p0 : PeekingLexer) : PeekingLexer → Prop where
  | refl : Reach p0 p0
  | next {p q : PeekingLexer} {t : Token} (hr : Reach p0 p) (hs : p.next = some (t, q)) :
      Reach p0 q
  | ff {p q : PeekingLexer} {n : Nat} (hr : Reach p0 p) (hs : p.fastForward n = some q) :
      Reach p0 q
  | load {p q : PeekingLexer} (hp : Reach p0 p) (hq : Reach p0 q) :
      Reach p0 (p.loadCheckpoint q.makeCheckpoint)

/-- The cursor invariant transfers along equal streams and elision sets. -/
theorem CursorInv.transfer (q : PeekingLexer) (ts : List Token) (el : List Int)
    (hq : CursorInv q) (ht : q.tokens = ts) (he : q.elide = el) :
    CursorInv ⟨q.chk, ts, el⟩ := by
  subst ht
  subst he
  exact hq

/-- Every reachable state satisfies the cursor invariant and keeps the
stream and elision set of the initial state. -/
theorem reach_inv (p0 : PeekingLexer) (hwf : LastOnlyEOF p0.tokens) (hinv : CursorInv p0) :
    ∀ p, Reach p0 p → CursorInv p ∧ p.tokens = p0.tokens ∧ p.elide = p0.elide := by
  intro p h
  induction h with
  | refl => exact ⟨hinv, rfl, rfl⟩
  | @next p q t hr hs ih =>
    have hwf' : LastOnlyEOF p.tokens := ih.2.1 ▸ hwf
    obtain ⟨hq, hts, hel⟩ := next_preserves_inv p t q hwf' ih.1 hs
    exact ⟨hq, hts.trans ih.2.1, hel.trans ih.2.2⟩
  | @ff p q n hr hs ih =>
    have hwf' : LastOnlyEOF p.tokens := ih.2.1 ▸ hwf
    obtain ⟨q', hq', hinv', hts, hel⟩ := fastForward_inv p n hwf' ih.1
    rw [hs] at hq'
    have : q = q' := Option.some.inj hq'
    subst this
    exact ⟨hinv', hts.trans ih.2.1, hel.trans ih.2.2⟩
  | @load p q hp hq ihp ihq =>
    refine ⟨?_, ihp.2.1, ihp.2.2⟩
    exact CursorInv.transfer q p.tokens p.elide ihq.1
      (ihq.2.1.trans ihp.2.1.symm) (ihq.2.2.trans ihp.2.2.symm)

/-! ## Claims about the peeking lexer -/

/-- Claim C4: for every `PeekingLexer` state (on a well-formed stream,
with the next cursor in bounds), `Next` consumes one non-elided token: it
returns that token, advances the raw cursor and the non-elided count past
it, and then advances the next cursor past any immediately following run
of elided tokens; when the next non-elided token is EOF, `Next` returns
the EOF token and leaves all three cursors unchanged, so `Next` at EOF is
idempotent. -/
theorem claim_next_consumes (p : PeekingLexer) (hwf : LastOnlyEOF p.tokens)
    (hn : p.chk.nextCursor + 1 ≤ p.tokens.length) :
    ((p.tokens.getD p.chk.nextCursor dummyTok).isEOF = true →
      p.next = some (p.tokens.getD p.chk.nextCursor dummyTok, p)) ∧
    ((p.tokens.getD p.chk.nextCursor dummyTok).isEOF = false →
      ∃ q, p.next = some (p.tokens.getD p.chk.nextCursor dummyTok, q) ∧
        q.tokens = p.tokens ∧ q.elide = p.elide ∧
        q.chk.rawCursor = p.chk.nextCursor + 1 ∧
        q.chk.cursor = p.chk.cursor + 1 ∧
        p.chk.nextCursor + 1 ≤ q.chk.nextCursor ∧
        q.chk.nextCursor + 1 ≤ p.tokens.length ∧
        (∀ k, p.chk.nextCursor + 1 ≤ k → k < q.chk.nextCursor →
          p.elide.contains (p.tokens.getD k dummyTok).type = true ∧
          (p.tokens.getD k dummyTok).isEOF = false) ∧
        ((p.tokens.getD q.chk.nextCursor dummyTok).isEOF = true ∨
          p.elide.contains (p.tokens.getD q.chk.nextCursor dummyTok).type = false)) :=
  next_spec p hwf hn

/-- Witness for claim C4 at concrete inputs: `Next` at EOF is the
identity, and `Next` over `tsW` consumes the identifier. -/
theorem claim_next_consumes_witness :
    lexAtEOF.next = some (dummyTok, lexAtEOF) ∧
    ∃ q, lexW.next = some (⟨1, "a", 0⟩, q) := by
  constructor
  · exact (claim_next_consumes lexAtEOF (by decide) (by decide)).1 (by decide)
  · obtain ⟨q, hq, -⟩ := (claim_next_consumes lexW (by decide) (by decide)).2 (by decide)
    exact ⟨q, hq⟩

/-- Claim C8: `LoadCheckpoint (MakeCheckpoint())` is the identity on the
lexer, `LoadCheckpoint c` (after any intermediate state change) restores
exactly the cursor triple `c` while leaving the stream and elision set
alone, and `MakeCheckpoint` merely reads the cursor triple. -/
theorem claim_checkpoint_roundtrip :
    (∀ p : PeekingLexer, p.loadCheckpoint p.makeCheckpoint = p) ∧
    (∀ (p : PeekingLexer) (c : Checkpoint),
      (p.loadCheckpoint c).chk = c ∧ (p.loadCheckpoint c).tokens = p.tokens ∧
      (p.loadCheckpoint c).elide = p.elide) ∧
    (∀ p : PeekingLexer, p.makeCheckpoint = p.chk) :=
  ⟨fun _ => rfl, fun _ _ => ⟨rfl, rfl, rfl⟩, fun _ => rfl⟩

/-- Claim C9: on a stream whose last element is its only EOF token, the
scanning loops of `advanceToNonElided`, `PeekAny` and `FastForward` all
terminate at or before the EOF index (the EOF test precedes the elision
test, so EOF is a barrier even when its own type is elided), and `Peek`,
`RawPeek`, `Next`, `PeekAny`, `FastForward` never read outside the token
array when the cursors start at valid indices. -/
theorem claim_scan_bounded (p : PeekingLexer) (pr : Token → Bool) (target : Nat)
    (hwf : LastOnlyEOF p.tokens)
    (hnext : p.chk.nextCursor + 1 ≤ p.tokens.length)
    (hraw : p.chk.rawCursor + 1 ≤ p.tokens.length) :
    (∃ j, advanceFrom p.tokens p.elide p.chk.nextCursor = some j ∧ j + 1 ≤ p.tokens.length) ∧
    (∃ t j, p.peekAny pr = some (t, j) ∧ j + 1 ≤ p.tokens.length) ∧
    (∃ r c, ffLoop p.tokens p.elide target p.chk.rawCursor p.chk.cursor = some (r, c) ∧
      r + 1 ≤ p.tokens.length) ∧
    p.peek.isSome = true ∧ p.rawPeek.isSome = true ∧ p.next.isSome = true ∧
    p.advanceToNonElided.isSome = true ∧ (p.fastForward target).isSome = true := by
  obtain ⟨j, hj, -, hjlen, -, -⟩ := advanceFrom_spec p.tokens p.elide hwf p.chk.nextCursor hnext
  obtain ⟨j2, hj2, -, hj2len, -, -⟩ :=
    peekAnyFrom_spec p.tokens p.elide pr hwf p.chk.rawCursor hraw
  obtain ⟨r, c, hr, hrlen⟩ :=
    ffLoop_spec p.tokens p.elide target hwf p.chk.rawCursor p.chk.cursor hraw
  refine ⟨⟨j, hj, hjlen⟩, ⟨_, j2, hj2, hj2len⟩, ⟨r, c, hr, hrlen⟩, ?_, ?_, ?_, ?_, ?_⟩
  · unfold PeekingLexer.peek
    rw [getD_some p.tokens p.chk.nextCursor (by omega)]
    rfl
  · unfold PeekingLexer.rawPeek
    rw [getD_some p.tokens p.chk.rawCursor (by omega)]
    rfl
  · obtain ⟨heof, hnot⟩ := next_spec p hwf hnext
    cases hE : (p.tokens.getD p.chk.nextCursor dummyTok).isEOF with
    | true =>
      rw [heof hE]
      rfl
    | false =>
      obtain ⟨q, hq, -⟩ := hnot hE
      rw [hq]
      rfl
  · unfold PeekingLexer.advanceToNonElided
    rw [hj]
    rfl
  · obtain ⟨j3, hj3, -, -, -, -⟩ := advanceFrom_spec p.tokens p.elide hwf r hrlen
    unfold PeekingLexer.fastForward
    rw [hr]
    unfold PeekingLexer.advanceToNonElided
    dsimp only
    rw [hj3]
    rfl

/-- Witness for claim C9, with the EOF type itself in the elision set. -/
theorem claim_scan_bounded_witness :
    lexB.peek.isSome = true ∧ lexB.next.isSome = true ∧
    (lexB.fastForward 10).isSome = true := by
  obtain ⟨-, -, -, h1, -, h3, -, h5⟩ :=
    claim_scan_bounded lexB (fun t => t.value == "z") 10 (by decide) (by decide) (by decide)
  exact ⟨h1, h3, h5⟩

/-- Counterexample to claim C5 as stated: when the elision set contains
the EOF type, `Peek` does return a token whose type is in the elision set
(the EOF token), so "Peek never returns a token whose type is in the
elision set" fails. -/
theorem claim_peek_elided_counterexample :
    (upgrade [dummyTok] [EOF]).bind PeekingLexer.peek = some dummyTok ∧
    [EOF].contains dummyTok.type = true := ⟨rfl, rfl⟩

/-- Claim C5 (amended): for every lexer built by `Upgrade` from a
well-formed stream and every sequence of `Next` / `FastForward` / `Peek` /
`RawPeek` / checkpoint operations, the cursor invariant holds afterwards
(`raw ≤ next`, tokens in `[raw, next)` all elided, token at `next` EOF or
non-elided); consequently `Peek` never returns an elided token other than
EOF, while `RawPeek` may return an elided non-EOF token (last conjunct:
a reachable state in which it does). -/
theorem claim_cursor_invariant (ts : List Token) (el : List Int) (p0 p : PeekingLexer)
    (hwf : LastOnlyEOF ts) (hup : upgrade ts el = some p0) (hr : Reach p0 p) :
    CursorInv p ∧ p.tokens = ts ∧ p.elide = el ∧
    (∀ t, p.peek = some t → p.elide.contains t.type = true → t.isEOF = true) ∧
    (∃ (ts' : List Token) (el' : List Int) (p0' q : PeekingLexer) (t : Token),
      LastOnlyEOF ts' ∧ upgrade ts' el' = some p0' ∧ Reach p0' q ∧
      q.rawPeek = some t ∧ t.isEOF = false ∧ el'.contains t.type = true) := by
  obtain ⟨p0', hup', hts0, hel0, -, -, hinv0⟩ := upgrade_spec ts el hwf
  rw [hup] at hup'
  have he : p0 = p0' := Option.some.inj hup'
  subst he
  have hwf0 : LastOnlyEOF p0.tokens := hts0 ▸ hwf
  obtain ⟨hinv, hts, hel⟩ := reach_inv p0 hwf0 hinv0 p hr
  refine ⟨hinv, hts.trans hts0, hel.trans hel0, ?_, ?_⟩
  · intro t hpk helt
    obtain ⟨-, h2, -, h4⟩ := hinv
    rw [PeekingLexer.peek, getD_some p.tokens p.chk.nextCursor (by omega)] at hpk
    have ht : t = p.tokens.getD p.chk.nextCursor dummyTok := (Option.some.inj hpk).symm
    subst ht
    rcases h4 with h | h
    · exact h
    · rw [helt] at h
      cases h
  · refine ⟨tsRaw, elW, lexRaw, lexRaw, ⟨2, " ", 0⟩, by decide, by decide, Reach.refl,
      rfl, rfl, rfl⟩

/-- Witness for claim C5 (amended) at a concrete reachable state: the
state of `lexW` after one `Next` satisfies the cursor invariant. -/
theorem claim_cursor_invariant_witness : CursorInv lexW1 := by
  have h := claim_cursor_invariant tsW elW lexW lexW1 (by decide) (by decide)
    (Reach.next Reach.refl (show lexW.next = some (⟨1, "a", 0⟩, lexW1) by decide))
  exact h.1

/-! ## Lemmas about `disjunction.Parse` -/

/-- Outcome of the head alternative of a cons list. -/
theorem altOutcome_cons_zero (a : AltFn) (rest : List AltFn) (ctx : ParseCtx) :
    altOutcome (a :: rest) ctx 0 = a ctx.branch := rfl

/-- Outcomes of the tail alternatives of a cons list. -/
theorem altOutcome_cons_succ (a : AltFn) (rest : List AltFn) (ctx : ParseCtx) (j : Nat) :
    altOutcome (a :: rest) ctx (j + 1) = altOutcome rest ctx j := rfl

/-- The disjunction loop on an empty list with no recorded error. -/
theorem disjLoop_nil_none (ctx : ParseCtx) (d : Nat) (fv : Option (List PVal)) :
    disjunctionLoop ctx [] d none fv = .done ⟨none, none, ctx⟩ := rfl

/-- The disjunction loop on an empty list with a recorded error. -/
theorem disjLoop_nil_some (ctx : ParseCtx) (d : Nat) (e : PErr) (fv : Option (List PVal)) :
    disjunctionLoop ctx [] d (some e) fv =
      .done ⟨fv, some e, ctx.maybeUpdateError e⟩ := rfl

/-- Step of the disjunction loop when the head alternative fails
recoverably. -/
theorem disjLoop_cons_err (ctx : ParseCtx) (a : AltFn) (rest : List AltFn)
    (d : Nat) (fe : Option PErr) (fv : Option (List PVal)) (e : PErr)
    (hr : (a ctx.branch).err = some e) (hstop : ctx.stop (a ctx.branch).ctx = false) :
    disjunctionLoop ctx (a :: rest) d fe fv =
      if (a ctx.branch).ctx.lex.chk.cursor ≥ d then
        disjunctionLoop ctx rest (a ctx.branch).ctx.lex.chk.cursor (some e) (a ctx.branch).vals
      else disjunctionLoop ctx rest d fe fv := by
  simp only [disjunctionLoop, hr, hstop]
  simp

/-- Step of the disjunction loop when the head alternative returns
no-match. -/
theorem disjLoop_cons_nomatch (ctx : ParseCtx) (a : AltFn) (rest : List AltFn)
    (d : Nat) (fe : Option PErr) (fv : Option (List PVal))
    (hr : (a ctx.branch).err = none) (hv : (a ctx.branch).vals = none) :
    disjunctionLoop ctx (a :: rest) d fe fv = disjunctionLoop ctx rest d fe fv := by
  simp only [disjunctionLoop, hr, hv]

/-- Step of the disjunction loop when the head alternative matches and
passes the progress check. -/
theorem disjLoop_cons_match (ctx : ParseCtx) (a : AltFn) (rest : List AltFn)
    (d : Nat) (fe : Option PErr) (fv : Option (List PVal)) (v : List PVal)
    (hr : (a ctx.branch).err = none) (hv : (a ctx.branch).vals = some v)
    (hprog : progressOk ctx (a ctx.branch)) :
    disjunctionLoop ctx (a :: rest) d fe fv =
      .done ⟨some v, none, ctx.accept (a ctx.branch).ctx⟩ := by
  have hcond : ((a ctx.branch).ctx.lex.chk.rawCursor == ctx.lex.chk.rawCursor &&
      !(a ctx.branch).ctx.lex.rawPeekD.isEOF) = false := by
    rcases hprog with h | h
    · have : ((a ctx.branch).ctx.lex.chk.rawCursor == ctx.lex.chk.rawCursor) = false :=
        beq_eq_false_iff_ne.mpr h
      simp [this]
    · simp [h]
  simp only [disjunctionLoop, hr, hv, hcond]
  rfl

/-- When every alternative either no-matches or fails recoverably and
every error branch stays strictly below the incumbent depth, the loop
returns the incumbent. -/
theorem disjLoop_low (alts : List AltFn) (ctx : ParseCtx) :
    ∀ d fe fv,
    (∀ j, j < alts.length →
      noMatchAlt (altOutcome alts ctx j) ∨ recovErrAlt ctx (altOutcome alts ctx j)) →
    (∀ j, j < alts.length → (altOutcome alts ctx j).err ≠ none →
      (altOutcome alts ctx j).ctx.lex.chk.cursor < d) →
    (fe = none → disjunctionLoop ctx alts d fe fv = .done ⟨none, none, ctx⟩) ∧
    (∀ e, fe = some e → disjunctionLoop ctx alts d fe fv =
      .done ⟨fv, some e, ctx.maybeUpdateError e⟩) := by
  induction alts with
  | nil =>
    intro d fe fv _ _
    constructor
    · intro h
      subst h
      exact disjLoop_nil_none ctx d fv
    · intro e h
      subst h
      exact disjLoop_nil_some ctx d e fv
  | cons a rest ih =>
    intro d fe fv hall hlow
    have h0 := hall 0 (by simp)
    rw [altOutcome_cons_zero] at h0
    have hall' : ∀ j, j < rest.length →
        noMatchAlt (altOutcome rest ctx j) ∨ recovErrAlt ctx (altOutcome rest ctx j) := by
      intro j hj
      have := hall (j + 1) (by simp; omega)
      rwa [altOutcome_cons_succ] at this
    rcases h0 with ⟨he, hv⟩ | ⟨he, hstop⟩
    · have hstep := disjLoop_cons_nomatch ctx a rest d fe fv he hv
      rw [hstep]
      exact ih d fe fv hall' (fun j hj hne => by
        have := hlow (j + 1) (by simp; omega)
        rw [altOutcome_cons_succ] at this
        exact this hne)
    · obtain ⟨e0, he0⟩ := Option.ne_none_iff_exists'.mp he
      have hstep := disjLoop_cons_err ctx a rest d fe fv e0 he0 hstop
      rw [hstep]
      have hc : (a ctx.branch).ctx.lex.chk.cursor < d := by
        have := hlow 0 (by simp)
        rw [altOutcome_cons_zero] at this
        exact this he
      rw [if_neg (by omega)]
      exact ih d fe fv hall' (fun j hj hne => by
        have := hlow (j + 1) (by simp; omega)
        rw [altOutcome_cons_succ] at this
        exact this hne)

/-- When every alternative either no-matches or fails recoverably, the
loop returns the error of the alternative `m` that reached the deepest
non-elided cursor (at least the incumbent depth), later alternatives
winning ties (no strictly-later alternative reaches `m`'s depth). -/
theorem disjLoop_deepest (alts : List AltFn) (ctx : ParseCtx) :
    ∀ d fe fv m e,
    (∀ j, j < alts.length →
      noMatchAlt (altOutcome alts ctx j) ∨ recovErrAlt ctx (altOutcome alts ctx j)) →
    m < alts.length →
    (altOutcome alts ctx m).err = some e →
    d ≤ (altOutcome alts ctx m).ctx.lex.chk.cursor →
    (∀ j, j < alts.length → (altOutcome alts ctx j).err ≠ none →
      (altOutcome alts ctx j).ctx.lex.chk.cursor ≤
        (altOutcome alts ctx m).ctx.lex.chk.cursor) →
    (∀ j, m < j → j < alts.length → (altOutcome alts ctx j).err ≠ none →
      (altOutcome alts ctx j).ctx.lex.chk.cursor <
        (altOutcome alts ctx m).ctx.lex.chk.cursor) →
    disjunctionLoop ctx alts d fe fv =
      .done ⟨(altOutcome alts ctx m).vals, some e, ctx.maybeUpdateError e⟩ := by
  induction alts with
  | nil => intro d fe fv m e _ hm; simp at hm
  | cons a rest ih =>
    intro d fe fv m e hall hm hme hd hmax hlast
    have h0 := hall 0 (by simp)
    rw [altOutcome_cons_zero] at h0
    have hall' : ∀ j, j < rest.length →
        noMatchAlt (altOutcome rest ctx j) ∨ recovErrAlt ctx (altOutcome rest ctx j) := by
      intro j hj
      have := hall (j + 1) (by simp; omega)
      rwa [altOutcome_cons_succ] at this
    cases m with
    | zero =>
      rw [altOutcome_cons_zero] at hme hd hmax hlast
      have hstop : ctx.stop (a ctx.branch).ctx = false := by
        rcases h0 with ⟨he, -⟩ | ⟨-, hs⟩
        · rw [he] at hme
          cases hme
        · exact hs
      rw [disjLoop_cons_err ctx a rest d fe fv e hme hstop, if_pos hd]
      have hlow : ∀ j, j < rest.length → (altOutcome rest ctx j).err ≠ none →
          (altOutcome rest ctx j).ctx.lex.chk.cursor < (a ctx.branch).ctx.lex.chk.cursor := by
        intro j hj hne
        have := hlast (j + 1) (by omega) (by simp; omega)
        rw [altOutcome_cons_succ] at this
        exact this hne
      have := (disjLoop_low rest ctx (a ctx.branch).ctx.lex.chk.cursor (some e)
        (a ctx.branch).vals hall' hlow).2 e rfl
      rw [this, altOutcome_cons_zero]
    | succ m' =>
      rw [altOutcome_cons_succ] at hme hd hmax hlast ⊢
      have hm' : m' < rest.length := by simp at hm; omega
      have hmax' : ∀ j, j < rest.length → (altOutcome rest ctx j).err ≠ none →
          (altOutcome rest ctx j).ctx.lex.chk.cursor ≤
            (altOutcome rest ctx m').ctx.lex.chk.cursor := by
        intro j hj hne
        have := hmax (j + 1) (by simp; omega)
        rw [altOutcome_cons_succ] at this
        exact this hne
      have hlast' : ∀ j, m' < j → j < rest.length → (altOutcome rest ctx j).err ≠ none →
          (altOutcome rest ctx j).ctx.lex.chk.cursor <
            (altOutcome rest ctx m').ctx.lex.chk.cursor := by
        intro j hj1 hj2 hne
        have := hlast (j + 1) (by omega) (by simp; omega)
        rw [altOutcome_cons_succ] at this
        exact this hne
      rcases h0 with ⟨he, hv⟩ | ⟨he, hstop⟩
      · rw [disjLoop_cons_nomatch ctx a rest d fe fv he hv]
        exact ih d fe fv m' e hall' hm' hme hd hmax' hlast'
      · obtain ⟨e0, he0⟩ := Option.ne_none_iff_exists'.mp he
        rw [disjLoop_cons_err ctx a rest d fe fv e0 he0 hstop]
        have hle0 : (a ctx.branch).ctx.lex.chk.cursor ≤
            (altOutcome rest ctx m').ctx.lex.chk.cursor := by
          have := hmax 0 (by simp)
          rw [altOutcome_cons_zero] at this
          exact this (by rw [he0]; exact fun h => by cases h)
        by_cases hc : (a ctx.branch).ctx.lex.chk.cursor ≥ d
        · rw [if_pos hc]
          exact ih ((a ctx.branch).ctx.lex.chk.cursor) (some e0) (a ctx.branch).vals m' e
            hall' hm' hme hle0 hmax' hlast'
        · rw [if_neg hc]
          exact ih d fe fv m' e hall' hm' hme hd hmax' hlast'

/-- When the alternatives before `k` all no-match or fail recoverably and
alternative `k` matches (passing the progress check), the loop accepts
alternative `k`'s branch and returns its values, independently of the
accumulator. -/
theorem disjLoop_first (alts : List AltFn) (ctx : ParseCtx) :
    ∀ d fe fv k v,
    k < alts.length →
    (∀ j, j < k →
      noMatchAlt (altOutcome alts ctx j) ∨ recovErrAlt ctx (altOutcome alts ctx j)) →
    (altOutcome alts ctx k).err = none →
    (altOutcome alts ctx k).vals = some v →
    progressOk ctx (altOutcome alts ctx k) →
    disjunctionLoop ctx alts d fe fv =
      .done ⟨some v, none, ctx.accept (altOutcome alts ctx k).ctx⟩ := by
  induction alts with
  | nil => intro d fe fv k v hk; simp at hk
  | cons a rest ih =>
    intro d fe fv k v hk hpre he hv hprog
    cases k with
    | zero =>
      rw [altOutcome_cons_zero] at he hv hprog ⊢
      exact disjLoop_cons_match ctx a rest d fe fv v he hv hprog
    | succ k' =>
      rw [altOutcome_cons_succ] at he hv hprog ⊢
      have hk' : k' < rest.length := by simp at hk; omega
      have hpre' : ∀ j, j < k' →
          noMatchAlt (altOutcome rest ctx j) ∨ recovErrAlt ctx (altOutcome rest ctx j) := by
        intro j hj
        have := hpre (j + 1) (by omega)
        rwa [altOutcome_cons_succ] at this
      have h0 := hpre 0 (by omega)
      rw [altOutcome_cons_zero] at h0
      rcases h0 with ⟨he0, hv0⟩ | ⟨he0, hstop⟩
      · rw [disjLoop_cons_nomatch ctx a rest d fe fv he0 hv0]
        exact ih d fe fv k' v hk' hpre' he hv hprog
      · obtain ⟨e0, he0'⟩ := Option.ne_none_iff_exists'.mp he0
        rw [disjLoop_cons_err ctx a rest d fe fv e0 he0' hstop]
        by_cases hc : (a ctx.branch).ctx.lex.chk.cursor ≥ d
        · rw [if_pos hc]
          exact ih _ _ _ k' v hk' hpre' he hv hprog
        · rw [if_neg hc]
          exact ih d fe fv k' v hk' hpre' he hv hprog

/-! ## Claim about `disjunction.Parse` -/

/-- Counterexample to claim C1 as stated. First scenario: two alternatives
fail recoverably at the same depth; the disjunction returns the error of
the *second* alternative (`custom 2`), not the first, so "ties between
equally deep failures broken in favor of the earlier alternative" fails
(the source updates its incumbent on `branch.Cursor() >= deepestError`).
Second scenario: an alternative that matches without advancing the lexer
panics instead of returning its values. -/
theorem claim_disjunction_counterexample :
    disjunctionParse [altErr1, altErr2] ctxW =
      .done ⟨none, some (.custom 2), ctxW.maybeUpdateError (.custom 2)⟩ ∧
    PErr.custom 2 ≠ PErr.custom 1 ∧
    (altOutcome [altErr1, altErr2] ctxW 0).ctx.lex.chk.cursor =
      (altOutcome [altErr1, altErr2] ctxW 1).ctx.lex.chk.cursor ∧
    disjunctionParse [altEps] ctxW = .panicked 0 := by decide

/-- Claim C1 (amended): `disjunction.Parse` tries its alternatives in
order on fresh branches of the same context and returns the values of the
first alternative that matches and advances the lexer (a successful
alternative that does not advance the raw cursor at non-EOF panics),
accepting its branch; if every alternative fails recoverably or
no-matches and at least one errored, it returns the error (and partial
values) of the alternative whose branch reached the deepest non-elided
cursor — ties between equally deep failures broken in favor of the later
alternative — and records that error via `MaybeUpdateError`; if no
alternative matched and none errored it returns no-match. -/
theorem claim_disjunction_semantics (alts : List AltFn) (ctx : ParseCtx) :
    (∀ k v, k < alts.length →
      (∀ j, j < k →
        noMatchAlt (altOutcome alts ctx j) ∨ recovErrAlt ctx (altOutcome alts ctx j)) →
      (altOutcome alts ctx k).err = none →
      (altOutcome alts ctx k).vals = some v →
      progressOk ctx (altOutcome alts ctx k) →
      disjunctionParse alts ctx =
        .done ⟨some v, none, ctx.accept (altOutcome alts ctx k).ctx⟩) ∧
    (∀ m e,
      (∀ j, j < alts.length →
        noMatchAlt (altOutcome alts ctx j) ∨ recovErrAlt ctx (altOutcome alts ctx j)) →
      m < alts.length →
      (altOutcome alts ctx m).err = some e →
      (∀ j, j < alts.length → (altOutcome alts ctx j).err ≠ none →
        (altOutcome alts ctx j).ctx.lex.chk.cursor ≤
          (altOutcome alts ctx m).ctx.lex.chk.cursor) →
      (∀ j, m < j → j < alts.length → (altOutcome alts ctx j).err ≠ none →
        (altOutcome alts ctx j).ctx.lex.chk.cursor <
          (altOutcome alts ctx m).ctx.lex.chk.cursor) →
      disjunctionParse alts ctx =
        .done ⟨(altOutcome alts ctx m).vals, some e, ctx.maybeUpdateError e⟩) ∧
    ((∀ j, j < alts.length → noMatchAlt (altOutcome alts ctx j)) →
      disjunctionParse alts ctx = .done ⟨none, none, ctx⟩) := by
  refine ⟨?_, ?_, ?_⟩
  · intro k v hk hpre he hv hprog
    exact disjLoop_first alts ctx 0 none none k v hk hpre he hv hprog
  · intro m e hall hm hme hmax hlast
    exact disjLoop_deepest alts ctx 0 none none m e hall hm hme (Nat.zero_le _) hmax hlast
  · intro hall
    refine (disjLoop_low alts ctx 0 none none (fun j hj => Or.inl (hall j hj)) ?_).1 rfl
    intro j hj hne
    exact absurd (hall j hj).1 hne

/-- Witness for claim C1 (amended) at concrete inputs: first-match with a
leading no-match alternative, deepest-error with a single failing
alternative, and all-no-match. -/
theorem claim_disjunction_semantics_witness :
    disjunctionParse [altNoMatch, altMatch] ctxW =
      .done ⟨some [.str "a"], none, ctxW.accept (altMatch ctxW.branch).ctx⟩ ∧
    disjunctionParse [altErr1] ctxW =
      .done ⟨none, some (.custom 1), ctxW.maybeUpdateError (.custom 1)⟩ ∧
    disjunctionParse [altNoMatch] ctxW = .done ⟨none, none, ctxW⟩ := by
  refine ⟨?_, ?_, ?_⟩
  · exact (claim_disjunction_semantics [altNoMatch, altMatch] ctxW).1 1 [.str "a"]
      (by decide)
      (fun j hj => by
        have hj0 : j = 0 := by omega
        subst hj0
        exact Or.inl (by decide))
      (by decide) (by decide) (by decide)
  · exact (claim_disjunction_semantics [altErr1] ctxW).2.1 0 (.custom 1)
      (fun j hj => by
        have hj0 : j = 0 := by simp at hj; omega
        subst hj0
        exact Or.inr (by decide))
      (by decide) (by decide)
      (fun j hj _ => by
        have hj0 : j = 0 := by simp at hj; omega
        subst hj0
        exact Nat.le_refl _)
      (fun j hj1 hj2 _ => by simp at hj2; omega)
  · exact (claim_disjunction_semantics [altNoMatch] ctxW).2.2
      (fun j hj => by
        have hj0 : j = 0 := by simp at hj; omega
        subst hj0
        exact (by decide : noMatchAlt (altOutcome [altNoMatch] ctxW 0)))

/-! ## Claim about `group.Parse` -/

/-- Merging a deepest-error record with itself is the identity. -/
theorem mergeDeepest_self (d : Option (PErr × Nat)) : mergeDeepest d d = d := by
  cases d with
  | none => rfl
  | some p =>
    obtain ⟨e, n⟩ := p
    simp [mergeDeepest]

/-- Accepting an untouched branch of a context is a no-op. -/
theorem accept_branch_refl (c : ParseCtx) : c.accept c.branch = c := by
  unfold ParseCtx.accept ParseCtx.branch
  simp [mergeDeepest_self]

/-- The group loop on the empty-match alternative spins (each iteration
matches with zero captures and a no-op accept) until the `matches < max`
guard fails. -/
theorem groupLoop_eps (mx : Nat) :
    ∀ fuel nM out c, fuel = mx - nM → nM ≤ mx →
      groupLoopAux altEps mx fuel nM out c = .broke mx out c := by
  intro fuel
  induction fuel with
  | zero =>
    intro nM out c hf hle
    have h : nM = mx := by omega
    subst h
    rfl
  | succ fuel ih =>
    intro nM out c hf hle
    have hlt : nM < mx := by omega
    simp only [groupLoopAux]
    rw [if_pos hlt]
    show groupLoopAux altEps mx fuel (nM + 1) out (c.accept c.branch) = .broke mx out c
    rw [accept_branch_refl]
    exact ih (nM + 1) out c (by omega) (by omega)

/-- Claim C2: for every repeating group (zero-or-more or one-or-more),
`group.Parse` fails with an iteration-limit error at the current token
position when the number of matched iterations reaches `MaxIterations`;
fails with a "must match at least once" error when the iteration count is
below the group's minimum; and when the minimum is zero and the loop
accumulated no captures, returns an empty, non-nil value list. -/
theorem claim_group_repetition (mode : GroupMode) (expr : AltFn) (ctx : ParseCtx)
    (hmode : mode = .zeroOrMore ∨ mode = .oneOrMore) :
    (∀ m out c, groupLoop expr MaxIterations 0 none ctx = .broke m out c →
      MaxIterations ≤ m →
      groupParse mode expr ctx = ⟨none, some (.tooManyIterations c.peekD.pos), c⟩) ∧
    (∀ m out c, groupLoop expr MaxIterations 0 none ctx = .broke m out c →
      m < MaxIterations → mode = .oneOrMore → m = 0 →
      groupParse mode expr ctx = ⟨out, some (.mustMatchAtLeastOnce c.peekD.pos), c⟩) ∧
    (∀ m out c, groupLoop expr MaxIterations 0 none ctx = .broke m out c →
      m < MaxIterations → mode = .zeroOrMore → out = none →
      groupParse mode expr ctx = ⟨some [], none, c⟩) := by
  rcases hmode with h | h
  all_goals subst h
  · refine ⟨?_, ?_, ?_⟩
    · intro m out c hloop hm
      simp only [groupParse]
      rw [hloop]
      dsimp only
      rw [if_pos hm]
    · intro m out c hloop hm hmode' h0
      cases hmode'
    · intro m out c hloop hm _ hout
      subst hout
      simp only [groupParse]
      rw [hloop]
      dsimp only
      rw [if_neg (by omega), if_neg (by omega), if_pos ⟨trivial, rfl⟩]
  · refine ⟨?_, ?_, ?_⟩
    · intro m out c hloop hm
      simp only [groupParse]
      rw [hloop]
      dsimp only
      rw [if_pos hm]
    · intro m out c hloop hm _ h0
      subst h0
      simp only [groupParse]
      rw [hloop]
      dsimp only
      rw [if_neg (by omega), if_pos (by omega)]
    · intro m out c hloop hm hmode' hout
      cases hmode'

/-- Witness for claim C2 at concrete inputs: an absent optional repetition
returns an empty non-nil list, a one-or-more group that never matches
fails with the must-match error, and an empty-match alternative spins up
to the iteration limit and fails with the iteration-limit error. -/
theorem claim_group_repetition_witness :
    groupParse .zeroOrMore altNoMatch ctxW = ⟨some [], none, ctxW⟩ ∧
    groupParse .oneOrMore altNoMatch ctxW = ⟨none, some (.mustMatchAtLeastOnce 0), ctxW⟩ ∧
    groupParse .zeroOrMore altEps ctxW = ⟨none, some (.tooManyIterations 0), ctxW⟩ := by
  have heps : groupLoop altEps MaxIterations 0 none ctxW = .broke MaxIterations none ctxW :=
    groupLoop_eps MaxIterations (MaxIterations - 0) 0 none ctxW rfl (Nat.zero_le _)
  refine ⟨?_, ?_, ?_⟩
  · exact (claim_group_repetition .zeroOrMore altNoMatch ctxW (Or.inl rfl)).2.2 0 none ctxW
      (by decide) (by decide) rfl rfl
  · exact (claim_group_repetition .oneOrMore altNoMatch ctxW (Or.inr rfl)).2.1 0 none ctxW
      (by decide) (by decide) rfl rfl
  · exact (claim_group_repetition .zeroOrMore altEps ctxW (Or.inl rfl)).1 MaxIterations none
      ctxW heps (Nat.le_refl _)

/-! ## Claim about `negation.Parse` -/

/-- `peekD` reads the token under the next cursor when it is in bounds. -/
theorem peekD_eq (p : PeekingLexer) (h : p.chk.nextCursor + 1 ≤ p.tokens.length) :
    p.peekD = p.tokens.getD p.chk.nextCursor dummyTok := by
  unfold PeekingLexer.peekD PeekingLexer.peek
  rw [getD_some p.tokens p.chk.nextCursor (by omega)]
  rfl

/-- Claim C3: `negation.Parse` returns no-match at EOF without consuming
input; fails with `UnexpectedToken` (carrying the peeked token) when the
inner node, run on an uncommitted branch, matched; and otherwise consumes
exactly one token from the parent cursor via `Next`, returning its string
value as the single captured value (the last conjunct: on a reachable
well-formed lexer state the non-elided cursor advances by exactly one). -/
theorem claim_negation_semantics (inner : AltFn) (ctx : ParseCtx) :
    (ctx.peekD.isEOF = true → negationParse inner ctx = ⟨none, none, ctx⟩) ∧
    (ctx.peekD.isEOF = false → (inner ctx.branch).vals ≠ none →
      (inner ctx.branch).err = none →
      negationParse inner ctx = ⟨none, some (.unexpectedToken ctx.peekD), ctx⟩) ∧
    (ctx.peekD.isEOF = false →
      ((inner ctx.branch).vals = none ∨ (inner ctx.branch).err ≠ none) →
      negationParse inner ctx =
        ⟨some [.str ctx.lex.nextT.1.value], none, { ctx with lex := ctx.lex.nextT.2 }⟩) ∧
    (∀ ts el p0, LastOnlyEOF ts → upgrade ts el = some p0 → Reach p0 ctx.lex →
      ctx.peekD.isEOF = false →
      ((inner ctx.branch).vals = none ∨ (inner ctx.branch).err ≠ none) →
      (negationParse inner ctx).ctx.lex.chk.cursor = ctx.lex.chk.cursor + 1) := by
  have hnomatch : ctx.peekD.isEOF = false →
      ((inner ctx.branch).vals = none ∨ (inner ctx.branch).err ≠ none) →
      negationParse inner ctx =
        ⟨some [.str ctx.lex.nextT.1.value], none, { ctx with lex := ctx.lex.nextT.2 }⟩ := by
    intro hE hfail
    unfold negationParse
    rw [if_neg (by rw [hE]; exact fun h => by cases h)]
    rw [if_neg ?_]
    rcases hfail with h | h
    · exact fun hc => hc.1 h
    · exact fun hc => h hc.2
  refine ⟨?_, ?_, hnomatch, ?_⟩
  · intro hE
    unfold negationParse
    rw [if_pos hE]
  · intro hE hv he
    unfold negationParse
    rw [if_neg (by rw [hE]; exact fun h => by cases h)]
    rw [if_pos ⟨hv, he⟩]
  · intro ts el p0 hwf hup hr hE hfail
    rw [hnomatch hE hfail]
    obtain ⟨p0', hup', hts0, hel0, -, -, hinv0⟩ := upgrade_spec ts el hwf
    rw [hup] at hup'
    have he0 : p0 = p0' := Option.some.inj hup'
    subst he0
    have hwf0 : LastOnlyEOF p0.tokens := hts0 ▸ hwf
    obtain ⟨⟨-, h2, -, -⟩, hts, -⟩ := reach_inv p0 hwf0 hinv0 ctx.lex hr
    have hwfl : LastOnlyEOF ctx.lex.tokens := by
      rw [hts]
      exact hwf0
    have hEg : (ctx.lex.tokens.getD ctx.lex.chk.nextCursor dummyTok).isEOF = false := by
      rw [← peekD_eq ctx.lex h2]
      exact hE
    obtain ⟨-, hnot⟩ := next_spec ctx.lex hwfl h2
    obtain ⟨q, hq, -, -, -, hcur, -, -, -, -⟩ := hnot hEg
    show (ctx.lex.nextT.2).chk.cursor = ctx.lex.chk.cursor + 1
    unfold PeekingLexer.nextT
    rw [hq]
    exact hcur

/-- Witness for claim C3 at concrete inputs: negation at EOF no-matches;
negation of a matching inner node fails with `UnexpectedToken`; negation
of a no-matching inner node consumes the identifier (advancing the
non-elided cursor by one). -/
theorem claim_negation_semantics_witness :
    negationParse altNoMatch ctxE = ⟨none, none, ctxE⟩ ∧
    negationParse altEps ctxW = ⟨none, some (.unexpectedToken ⟨1, "a", 0⟩), ctxW⟩ ∧
    negationParse altNoMatch ctxW = ⟨some [.str "a"], none, { ctxW with lex := lexW1 }⟩ ∧
    (negationParse altNoMatch ctxW).ctx.lex.chk.cursor = ctxW.lex.chk.cursor + 1 := by
  refine ⟨?_, ?_, ?_, ?_⟩
  · exact (claim_negation_semantics altNoMatch ctxE).1 (by decide)
  · exact (claim_negation_semantics altEps ctxW).2.1 (by decide) (by decide) (by decide)
  · exact (claim_negation_semantics altNoMatch ctxW).2.2.1 (by decide) (Or.inl (by decide))
  · exact (claim_negation_semantics altNoMatch ctxW).2.2.2 tsW elW lexW (by decide) (by decide)
      Reach.refl (by decide) (Or.inl (by decide))

/-! ## Claim about `literal.Parse` -/

/-- Counterexample to claim C6 as stated: an empty-string literal matches
a token whose value is not equal to the literal (`l.s == ""` short-circuits
the value comparison in the match predicate), so "matches the token whose
value equals the literal" fails for empty literals. -/
theorem claim_literal_counterexample :
    (literalParse "" (-1) ctxW).vals = some [.str "a"] ∧ "a" ≠ "" := by
  constructor
  · decide
  · decide

/-- Claim C6 (amended): the match predicate of `literal.Parse` accepts a
token iff the literal is untyped (type `-1`) or the types agree, and the
literal is empty (matching any value) or the values agree — compared
case-insensitively when the token's type is in the context's
case-insensitive set and case-sensitively otherwise; `literal.Parse`
scans with `PeekAny` to the first token that is EOF, matches, or is
non-elided; if that token matches it fast-forwards the cursors to its
position and returns its value, otherwise it returns no-match without
advancing. -/
theorem claim_literal_semantics (s : String) (lt : Int) (ctx : ParseCtx)
    (hwf : LastOnlyEOF ctx.lex.tokens)
    (hraw : ctx.lex.chk.rawCursor + 1 ≤ ctx.lex.tokens.length) :
    (∀ t : Token, literalMatch ctx.caseInsensitive s lt t = true ↔
      ((lt = -1 ∨ lt = t.type) ∧ (s = "" ∨
        (if ctx.caseInsensitive.contains t.type then eqFold t.value s = true
         else t.value = s)))) ∧
    (∃ j, ctx.lex.peekAny (literalMatch ctx.caseInsensitive s lt) =
        some (ctx.lex.tokens.getD j dummyTok, j) ∧
      ctx.lex.chk.rawCursor ≤ j ∧ j + 1 ≤ ctx.lex.tokens.length ∧
      (∀ k, ctx.lex.chk.rawCursor ≤ k → k < j →
        (ctx.lex.tokens.getD k dummyTok).isEOF = false ∧
        literalMatch ctx.caseInsensitive s lt (ctx.lex.tokens.getD k dummyTok) = false ∧
        ctx.lex.elide.contains (ctx.lex.tokens.getD k dummyTok).type = true) ∧
      (if literalMatch ctx.caseInsensitive s lt (ctx.lex.tokens.getD j dummyTok) then
        literalParse s lt ctx =
          ⟨some [.str (ctx.lex.tokens.getD j dummyTok).value], none,
            { ctx with lex := ctx.lex.fastForwardD j }⟩
       else literalParse s lt ctx = ⟨none, none, ctx⟩)) := by
  constructor
  · intro t
    by_cases hci : ctx.caseInsensitive.contains t.type = true
    · have hmem : t.type ∈ ctx.caseInsensitive := by simpa using hci
      simp [literalMatch, EOF, hci, hmem]
    · have hci' : ctx.caseInsensitive.contains t.type = false := by
        cases h : ctx.caseInsensitive.contains t.type
        · rfl
        · exact absurd h hci
      have hmem : t.type ∉ ctx.caseInsensitive := by simpa using hci'
      simp [literalMatch, EOF, hci', hmem]
  · obtain ⟨j, hj, hij, hjlen, -, hrun⟩ := peekAnyFrom_spec ctx.lex.tokens ctx.lex.elide
      (literalMatch ctx.caseInsensitive s lt) hwf ctx.lex.chk.rawCursor hraw
    have hj' : ctx.lex.peekAny (literalMatch ctx.caseInsensitive s lt) =
        some (ctx.lex.tokens.getD j dummyTok, j) := hj
    refine ⟨j, hj', hij, hjlen, fun k h1 h2 => hrun k h1 h2, ?_⟩
    cases hm : literalMatch ctx.caseInsensitive s lt (ctx.lex.tokens.getD j dummyTok) with
    | false =>
      have heq : literalParse s lt ctx = ⟨none, none, ctx⟩ := by
        unfold literalParse
        rw [hj']
        dsimp only
        rw [if_neg (by rw [hm]; exact fun h => by cases h)]
      simp [heq]
    | true =>
      have heq : literalParse s lt ctx =
          ⟨some [.str (ctx.lex.tokens.getD j dummyTok).value], none,
            { ctx with lex := ctx.lex.fastForwardD j }⟩ := by
        unfold literalParse
        rw [hj']
        dsimp only
        rw [if_pos hm]
      simp [heq]

/-- Witness for claim C6 at concrete inputs: the predicate accepts an
untyped literal by value, and a literal that matches nothing in the
stream returns no-match leaving the context unchanged. -/
theorem claim_literal_semantics_witness :
    literalMatch ctxW.caseInsensitive "a" (-1) ⟨1, "a", 0⟩ = true ∧
    literalParse "x" (-1) ctxW = ⟨none, none, ctxW⟩ := by
  constructor
  · exact ((claim_literal_semantics "a" (-1) ctxW (by decide) (by decide)).1
      ⟨1, "a", 0⟩).mpr ⟨Or.inl rfl, Or.inr (by decide)⟩
  · obtain ⟨j, hpeek, -, -, -, hif⟩ :=
      (claim_literal_semantics "x" (-1) ctxW (by decide) (by decide)).2
    have hconc : ctxW.lex.peekAny (literalMatch ctxW.caseInsensitive "x" (-1)) =
        some (⟨1, "a", 0⟩, 0) := by decide
    rw [hconc] at hpeek
    have hj : j = 0 := (congrArg Prod.snd (Option.some.inj hpeek)).symm
    subst hj
    rw [if_neg (by decide)] at hif
    exact hif

/-! ## Claims about the field binder -/

/-- For an integer target, `conform` only ever outputs values of exactly
the target type (same-kind values are converted, others are parsed into a
fresh value of the target type, or fail). -/
theorem conformAux_int_typed (bits : Nat) :
    ∀ vs out res, conformAux (.tint bits) out vs = .ok res →
      (∀ v ∈ out, v.typeOf = FType.tint bits) → ∀ v ∈ res, v.typeOf = FType.tint bits := by
  intro vs
  induction vs with
  | nil =>
    intro out res h hout
    have heq : (Except.ok out : Except BindErr (List RVal)) = .ok res := h
    have heq2 : out = res := Except.ok.inj heq
    exact heq2 ▸ hout
  | cons v rest ih =>
    intro out res h hout
    simp only [conformAux] at h
    rw [if_neg (fun hc => by simp [FType.kind] at hc)] at h
    by_cases hk : v.kind = FType.kind (.tint bits)
    · rw [if_pos hk] at h
      refine ih (out ++ [v.convertTo (.tint bits)]) res h ?_
      intro x hx
      rcases List.mem_append.mp hx with hx | hx
      · exact hout x hx
      · have hx' : x = v.convertTo (.tint bits) := by simpa using hx
        subst hx'
        cases v with
        | vint b n => simp [RVal.convertTo, RVal.typeOf]
        | vstr s => simp [RVal.kind, RVal.typeOf, FType.kind] at hk
        | vuint b n => simp [RVal.kind, RVal.typeOf, FType.kind] at hk
        | vbool b => simp [RVal.kind, RVal.typeOf, FType.kind] at hk
        | vtok t => simp [RVal.kind, RVal.typeOf, FType.kind] at hk
        | vtoks ts => simp [RVal.kind, RVal.typeOf, FType.kind] at hk
        | vslice e xs => simp [RVal.kind, RVal.typeOf, FType.kind] at hk
        | vptrOf x => simp [RVal.kind, RVal.typeOf, FType.kind] at hk
        | vptrNil e => simp [RVal.kind, RVal.typeOf, FType.kind] at hk
        | vrec i => simp [RVal.kind, RVal.typeOf, FType.kind] at hk
        | viface i => simp [RVal.kind, RVal.typeOf, FType.kind] at hk
    · rw [if_neg hk] at h
      cases hp : goParseInt v.goString bits with
      | none =>
        rw [hp] at h
        cases h
      | some n =>
        rw [hp] at h
        refine ih (out ++ [.vint bits n]) res h ?_
        intro x hx
        rcases List.mem_append.mp hx with hx | hx
        · exact hout x hx
        · have hx' : x = RVal.vint bits n := by simpa using hx
          subst hx'
          rfl

/-- For an unsigned target, `conform` only ever outputs values of exactly
the target type. -/
theorem conformAux_uint_typed (bits : Nat) :
    ∀ vs out res, conformAux (.tuint bits) out vs = .ok res →
      (∀ v ∈ out, v.typeOf = FType.tuint bits) → ∀ v ∈ res, v.typeOf = FType.tuint bits := by
  intro vs
  induction vs with
  | nil =>
    intro out res h hout
    have heq : (Except.ok out : Except BindErr (List RVal)) = .ok res := h
    have heq2 : out = res := Except.ok.inj heq
    exact heq2 ▸ hout
  | cons v rest ih =>
    intro out res h hout
    simp only [conformAux] at h
    rw [if_neg (fun hc => by simp [FType.kind] at hc)] at h
    by_cases hk : v.kind = FType.kind (.tuint bits)
    · rw [if_pos hk] at h
      refine ih (out ++ [v.convertTo (.tuint bits)]) res h ?_
      intro x hx
      rcases List.mem_append.mp hx with hx | hx
      · exact hout x hx
      · have hx' : x = v.convertTo (.tuint bits) := by simpa using hx
        subst hx'
        cases v with
        | vuint b n => simp [RVal.convertTo, RVal.typeOf]
        | vstr s => simp [RVal.kind, RVal.typeOf, FType.kind] at hk
        | vint b n => simp [RVal.kind, RVal.typeOf, FType.kind] at hk
        | vbool b => simp [RVal.kind, RVal.typeOf, FType.kind] at hk
        | vtok t => simp [RVal.kind, RVal.typeOf, FType.kind] at hk
        | vtoks ts => simp [RVal.kind, RVal.typeOf, FType.kind] at hk
        | vslice e xs => simp [RVal.kind, RVal.typeOf, FType.kind] at hk
        | vptrOf x => simp [RVal.kind, RVal.typeOf, FType.kind] at hk
        | vptrNil e => simp [RVal.kind, RVal.typeOf, FType.kind] at hk
        | vrec i => simp [RVal.kind, RVal.typeOf, FType.kind] at hk
        | viface i => simp [RVal.kind, RVal.typeOf, FType.kind] at hk
    · rw [if_neg hk] at h
      cases hp : goParseUint v.goString bits with
      | none =>
        rw [hp] at h
        cases h
      | some n =>
        rw [hp] at h
        refine ih (out ++ [.vuint bits n]) res h ?_
        intro x hx
        rcases List.mem_append.mp hx with hx | hx
        · exact hout x hx
        · have hx' : x = RVal.vuint bits n := by simpa using hx
          subst hx'
          rfl

/-- The nonempty results of `conform` contain their first `getD`. -/
theorem getD_zero_mem (vs : List RVal) (d : RVal) (h : vs.length ≠ 0) : vs.getD 0 d ∈ vs := by
  cases vs with
  | nil => exact absurd rfl h
  | cons a l => exact List.mem_cons_self a l

/-- `setField` on an integer field reduces entirely to coalescing plus
`conform`: when `conform` succeeds the (first) conformed value is assigned
— the "increment on type mismatch" arm is unreachable, because every value
`conform` returns for an integer target already has the field's type — and
when `conform` fails the error propagates. -/
theorem setFieldVal_int_conform (bits : Nat) (tokens : List Token) (fcur : RVal)
    (fieldValue : List RVal) :
    setFieldVal tokens noHooks (.tint bits) fcur fieldValue =
      (match conform (.tint bits)
          (if fieldValue.length > 1 then [RVal.vstr (String.join (fieldValue.map RVal.goString))]
           else fieldValue) with
       | .error e => .error e
       | .ok vs => if vs.length = 0 then .ok fcur else .ok (vs.getD 0 fcur)) := by
  simp only [setFieldVal]
  rw [if_neg (fun h => FType.noConfusion h), if_neg (fun h => FType.noConfusion h)]
  simp only [noHooks]
  cases hc : conform (.tint bits)
      (if fieldValue.length > 1 then [RVal.vstr (String.join (fieldValue.map RVal.goString))]
       else fieldValue) with
  | error e => rfl
  | ok vs =>
    dsimp only
    by_cases hlen : vs.length = 0
    · rw [if_pos hlen, if_pos hlen]
    · rw [if_neg hlen, if_neg hlen]
      have hmem := getD_zero_mem vs fcur hlen
      have htyped := conformAux_int_typed bits _ [] vs hc (by intro v hv; cases hv)
        (vs.getD 0 fcur) hmem
      rw [if_neg (fun hne => hne htyped)]

/-- `setField` on an unsigned field reduces entirely to coalescing plus
`conform`; the increment arm is unreachable. -/
theorem setFieldVal_uint_conform (bits : Nat) (tokens : List Token) (fcur : RVal)
    (fieldValue : List RVal) :
    setFieldVal tokens noHooks (.tuint bits) fcur fieldValue =
      (match conform (.tuint bits)
          (if fieldValue.length > 1 then [RVal.vstr (String.join (fieldValue.map RVal.goString))]
           else fieldValue) with
       | .error e => .error e
       | .ok vs => if vs.length = 0 then .ok fcur else .ok (vs.getD 0 fcur)) := by
  simp only [setFieldVal]
  rw [if_neg (fun h => FType.noConfusion h), if_neg (fun h => FType.noConfusion h)]
  simp only [noHooks]
  cases hc : conform (.tuint bits)
      (if fieldValue.length > 1 then [RVal.vstr (String.join (fieldValue.map RVal.goString))]
       else fieldValue) with
  | error e => rfl
  | ok vs =>
    dsimp only
    by_cases hlen : vs.length = 0
    · rw [if_pos hlen, if_pos hlen]
    · rw [if_neg hlen, if_neg hlen]
      have hmem := getD_zero_mem vs fcur hlen
      have htyped := conformAux_uint_typed bits _ [] vs hc (by intro v hv; cases hv)
        (vs.getD 0 fcur) hmem
      rw [if_neg (fun hne => hne htyped)]

/-- Claim C7, against the code (code bug): at the failing input — the
non-numeric captured string "v" bound to an `int64` field holding 0 — the
binder returns a fatal numeric-parse error instead of incrementing the
field to 1; base-0 parsing (0x prefix) and width fitting (uint8 range)
behave as claimed; and in general the numeric tail of `setField` reduces
to `conform`, whose outputs for a numeric target always already have the
field's type, so the "increment on type mismatch" arm
(`f.SetInt(f.Int() + 1)`) is unreachable. -/
theorem claim_numeric_field_binding :
    (setField [⟨3, "v", 0⟩] [RVal.vint 64 0] 0 (.tint 64) noHooks [RVal.vstr "v"] =
      .error (.numParse "v")) ∧
    (setField [⟨3, "v", 0⟩] [RVal.vint 64 0] 0 (.tint 64) noHooks [RVal.vstr "v"] ≠
      .ok [RVal.vint 64 1]) ∧
    (setField [⟨3, "0x10", 0⟩] [RVal.vint 64 0] 0 (.tint 64) noHooks [RVal.vstr "0x10"] =
      .ok [RVal.vint 64 16]) ∧
    (setField [⟨3, "16", 0⟩] [RVal.vuint 8 7] 0 (.tuint 8) noHooks [RVal.vstr "16"] =
      .ok [RVal.vuint 8 16]) ∧
    (setField [⟨3, "300", 0⟩] [RVal.vuint 8 7] 0 (.tuint 8) noHooks [RVal.vstr "300"] =
      .error (.numParse "300")) ∧
    (∀ (bits : Nat) (tokens : List Token) (fcur : RVal) (fieldValue : List RVal),
      setFieldVal tokens noHooks (.tint bits) fcur fieldValue =
        (match conform (.tint bits)
            (if fieldValue.length > 1 then
              [RVal.vstr (String.join (fieldValue.map RVal.goString))]
             else fieldValue) with
         | .error e => .error e
         | .ok vs => if vs.length = 0 then .ok fcur else .ok (vs.getD 0 fcur))) ∧
    (∀ (bits : Nat) (tokens : List Token) (fcur : RVal) (fieldValue : List RVal),
      setFieldVal tokens noHooks (.tuint bits) fcur fieldValue =
        (match conform (.tuint bits)
            (if fieldValue.length > 1 then
              [RVal.vstr (String.join (fieldValue.map RVal.goString))]
             else fieldValue) with
         | .error e => .error e
         | .ok vs => if vs.length = 0 then .ok fcur else .ok (vs.getD 0 fcur))) := by
  refine ⟨rfl, ?_, rfl, rfl, rfl, setFieldVal_int_conform, setFieldVal_uint_conform⟩
  intro h
  have h2 : (Except.error (BindErr.numParse "v") : Except BindErr (List RVal)) =
      .ok [RVal.vint 64 1] := by
    rw [← h]
    rfl
  exact Except.noConfusion h2

/-- Setting an index of a list to the element already there is the
identity (also out of range). -/
theorem list_set_getD_self {α : Type} (l : List α) (i : Nat) (d : α) :
    l.set i (l.getD i d) = l := by
  induction l generalizing i with
  | nil => rfl
  | cons a t ih =>
    cases i with
    | zero => rfl
    | succ n =>
      show a :: t.set n (t.getD n d) = a :: t
      rw [ih]

/-- `setFieldVal` with no captured values on a field that is not a
pointer, not `Token`/`[]Token`, exposes no hooks, and is not a slice or a
string, returns the current field value unchanged. -/
theorem setFieldVal_empty (tokens : List Token) (hooks : Hooks) (t : FType) (fcur : RVal)
    (hptr : ∀ e, t ≠ .tptr e) (htok : t ≠ .ttok) (htoks : t ≠ .ttoks)
    (hcap : hooks.fieldCapture = none) (htxt : hooks.fieldText = none)
    (hslice : ∀ e, t ≠ .tslice e) (hstr : t ≠ .tstr) :
    setFieldVal tokens hooks t fcur [] = .ok fcur := by
  cases t with
  | tptr e => exact absurd rfl (hptr e)
  | ttok => exact absurd rfl htok
  | ttoks => exact absurd rfl htoks
  | tslice e => exact absurd rfl (hslice e)
  | tstr => exact absurd rfl hstr
  | tint b =>
    simp only [setFieldVal]
    rw [if_neg (fun h => FType.noConfusion h), if_neg (fun h => FType.noConfusion h)]
    simp [hcap, htxt, conform, conformAux]
  | tuint b =>
    simp only [setFieldVal]
    rw [if_neg (fun h => FType.noConfusion h), if_neg (fun h => FType.noConfusion h)]
    simp [hcap, htxt, conform, conformAux]
  | tbool =>
    simp only [setFieldVal]
    rw [if_neg (fun h => FType.noConfusion h), if_neg (fun h => FType.noConfusion h)]
    simp [hcap, htxt, conform, conformAux]
  | trec i =>
    simp only [setFieldVal]
    rw [if_neg (fun h => FType.noConfusion h), if_neg (fun h => FType.noConfusion h)]
    simp [hcap, htxt, conform, conformAux]
  | tiface =>
    simp only [setFieldVal]
    rw [if_neg (fun h => FType.noConfusion h), if_neg (fun h => FType.noConfusion h)]
    simp [hcap, htxt, conform, conformAux]

/-- Claim C10: `setField` called with an empty captured-value list on a
field that is not a pointer, not of type `Token` or `[]Token`, implements
neither the `Capture` nor the `TextUnmarshaler` hook, and is not a slice
or a string, returns nil (no error) and leaves every field of the target
record unchanged. -/
theorem claim_setField_empty_noop (tokens : List Token) (strct : List RVal) (idx : Nat)
    (t : FType) (hooks : Hooks)
    (hptr : ∀ e, t ≠ .tptr e) (htok : t ≠ .ttok) (htoks : t ≠ .ttoks)
    (hcap : hooks.fieldCapture = none) (htxt : hooks.fieldText = none)
    (hslice : ∀ e, t ≠ .tslice e) (hstr : t ≠ .tstr) :
    setField tokens strct idx t hooks [] = .ok strct := by
  unfold setField
  rw [setFieldVal_empty tokens hooks t _ hptr htok htoks hcap htxt hslice hstr]
  dsimp only
  rw [list_set_getD_self]

/-- Witness for claim C10 at a concrete input: an empty capture list on an
integer field of a two-field record changes nothing. -/
theorem claim_setField_empty_noop_witness :
    setField [] [RVal.vint 64 5, RVal.vstr "x"] 0 (.tint 64) noHooks [] =
      .ok [RVal.vint 64 5, RVal.vstr "x"] :=
  claim_setField_empty_noop [] [RVal.vint 64 5, RVal.vstr "x"] 0 (.tint 64) noHooks
    (fun _ h => FType.noConfusion h) (fun h => FType.noConfusion h)
    (fun h => FType.noConfusion h) rfl rfl
    (fun _ h => FType.noConfusion h) (fun h => FType.noConfusion h)

end Participle
